import Mathlib

/-!
Verification of the WAV multisample codec core of the ep-multi-sampler
repository: the RIFF/WAVE header parser (`readWavInfo`), the PCM16
quantizer (`clampInt16`), the channel remixer (`toTargetChannels`), the
key-range region mapper (`buildAcDryRegions`), the RIFF chunk builders and
the kit encoder (`exportAcDryKitWavPcm16`).

Modelling conventions:
* byte buffers are `List Nat` (each entry a byte value; `DataView.getUint8`
  always yields values `< 256`, reads out of range are modelled with
  `List.getD _ _ 0` and only occur at guarded, in-bounds offsets);
* JavaScript numbers are rationals `ℚ`; the quantizer, whose behaviour on
  NaN and the infinities matters, runs on the extension type `JsNum`;
* `async` decoding (`decodeAudioData`) and `OfflineAudioContext` resampling
  are external browser capabilities; the kit encoder is modelled from the
  point where every item has been decoded and resampled, i.e. on a list of
  `(note, AudioBuffer)` pairs, exactly as the remaining pipeline sees them.
-/

/-- Little-endian bytes of a 16-bit write (`DataView.setUint16`), value
taken modulo 2^16 componentwise. -/
def le16 (n : Nat) : List Nat := [n % 256, n / 256 % 256]

/-- Little-endian bytes of a 32-bit write (`DataView.setUint32`), value
taken modulo 2^32 componentwise. -/
def le32 (n : Nat) : List Nat :=
  [n % 256, n / 256 % 256, n / 2 ^ 16 % 256, n / 2 ^ 24 % 256]

/-- A single byte read (`DataView.getUint8`); out-of-range reads default to
0 (the source only reads at offsets it has bounds-checked). -/
def readByte (bytes : List Nat) (off : Nat) : Nat := bytes.getD off 0

/-- `DataView.getUint16(off, true)`. -/
def readLE16 (bytes : List Nat) (off : Nat) : Nat :=
  readByte bytes off + 256 * readByte bytes (off + 1)

/-- `DataView.getUint32(off, true)`. -/
def readLE32 (bytes : List Nat) (off : Nat) : Nat :=
  readByte bytes off + 256 * readByte bytes (off + 1)
    + 2 ^ 16 * readByte bytes (off + 2) + 2 ^ 24 * readByte bytes (off + 3)

/-- `readAscii4`: the four raw bytes at `off` (compared against ASCII tags;
`String.fromCharCode` is injective on byte values). -/
def readTag4 (bytes : List Nat) (off : Nat) : List Nat :=
  [readByte bytes off, readByte bytes (off + 1),
   readByte bytes (off + 2), readByte bytes (off + 3)]

/-- Byte values of an ASCII string literal. -/
def asciiBytes (s : String) : List Nat := s.toList.map Char.toNat

/-- The four mutable locals of the `readWavInfo` scan loop. -/
structure ScanState where
  channels : Nat
  sampleRate : Nat
  bitsPerSample : Nat
  dataBytes : Nat
deriving DecidableEq, Repr

/-- One iteration body of the scan loop of `readWavInfo` (the part that
updates the four locals from the chunk at `offset`). -/
def scanStep (bytes : List Nat) (offset : Nat) (st : ScanState) : ScanState :=
  let chunkId := readTag4 bytes offset
  let chunkSize := readLE32 bytes (offset + 4)
  let chunkDataOffset := offset + 8
  if chunkId = asciiBytes "fmt " then
    if 16 ≤ chunkSize then
      { st with
        channels := readLE16 bytes (chunkDataOffset + 2)
        sampleRate := readLE32 bytes (chunkDataOffset + 4)
        bitsPerSample := readLE16 bytes (chunkDataOffset + 14) }
    else st
  else if chunkId = asciiBytes "data" then
    { st with dataBytes := chunkSize }
  else st

/-- The `while (offset + 8 <= view.byteLength)` loop of `readWavInfo`,
with explicit fuel (each iteration advances `offset` by at least 8, so
`bytes.length + 1` units of fuel always suffice; see `scanLoop_fuel`). -/
def scanLoop : Nat → List Nat → Nat → ScanState → ScanState
  | 0, _, _, st => st
  | fuel + 1, bytes, offset, st =>
    if offset + 8 ≤ bytes.length then
      if bytes.length < offset + 8 + readLE32 bytes (offset + 4) then st
      else
        scanLoop fuel bytes
          (offset + 8 + readLE32 bytes (offset + 4) + readLE32 bytes (offset + 4) % 2)
          (scanStep bytes offset st)
    else st

/-- The chunk scan of `readWavInfo`, starting at `offset` with state `st`. -/
def scanChunks (bytes : List Nat) (offset : Nat) (st : ScanState) : ScanState :=
  scanLoop (bytes.length + 1) bytes offset st

/-- `WavInfo` as returned by `readWavInfo`. -/
structure WavInfo where
  channels : Nat
  sampleRate : Nat
  bitsPerSample : Nat
  dataBytes : Nat
  durationSec : ℚ
deriving DecidableEq, Repr

/-- The byte rate computed by `readWavInfo`:
`sampleRate * channels * (bitsPerSample / 8)` in exact arithmetic.  All
three operands are bounded (u32/u16 reads), so the IEEE-double product in
the source is always finite and its sign agrees with the exact product;
the source's `Number.isFinite` guard therefore never fires and the
`byteRate <= 0` guard is modelled exactly. -/
def wavByteRate (st : ScanState) : ℚ :=
  (st.sampleRate : ℚ) * (st.channels : ℚ) * ((st.bitsPerSample : ℚ) / 8)

/-- `readWavInfo` on a whole byte buffer (the `Blob` already read into
memory). `Except.error` models a thrown `Error`. -/
def readWavInfo (bytes : List Nat) : Except String WavInfo :=
  if bytes.length < 12 then
    Except.error "Fichier trop petit pour etre un WAV"
  else if readTag4 bytes 0 ≠ asciiBytes "RIFF" ∨ readTag4 bytes 8 ≠ asciiBytes "WAVE" then
    Except.error "Header RIFF/WAVE invalide"
  else
    let st := scanChunks bytes 12 ⟨0, 0, 0, 0⟩
    if st.channels = 0 ∨ st.sampleRate = 0 ∨ st.bitsPerSample = 0 ∨ st.dataBytes = 0 then
      Except.error "Impossible de lire les infos WAV (fmt/data manquant)"
    else if wavByteRate st ≤ 0 then
      Except.error "WAV invalide (byteRate)"
    else
      Except.ok ⟨st.channels, st.sampleRate, st.bitsPerSample, st.dataBytes,
        (st.dataBytes : ℚ) / wavByteRate st⟩

/-- When every field of the scanned state is nonzero the computed byte
rate is strictly positive, so the source's final guard never fires. -/
theorem wavByteRate_pos (st : ScanState) (hc : st.channels ≠ 0)
    (hs : st.sampleRate ≠ 0) (hb : st.bitsPerSample ≠ 0) :
    0 < wavByteRate st := by
  have hc' : (0 : ℚ) < st.channels := by exact_mod_cast Nat.pos_of_ne_zero hc
  have hs' : (0 : ℚ) < st.sampleRate := by exact_mod_cast Nat.pos_of_ne_zero hs
  have hb' : (0 : ℚ) < st.bitsPerSample := by exact_mod_cast Nat.pos_of_ne_zero hb
  have h8 : (0 : ℚ) < 8 := by norm_num
  exact mul_pos (mul_pos hs' hc') (div_pos hb' h8)

/-- C4: the WAV header parser fails if and only if the buffer is shorter
than 12 bytes, the first four bytes are not `RIFF`, bytes 8–11 are not
`WAVE`, one of channels / sample rate / bits-per-sample / data length is
still zero after the chunk scan, or the computed byte rate is ≤ 0 (the
source also guards `Number.isFinite(byteRate)`, which cannot fail for the
bounded operands, see `wavByteRate`).  An oversized chunk merely stops the
scan (`scanLoop`) early and never appears among the failure conditions. -/
theorem readWavInfo_error_iff (bytes : List Nat) :
    (∃ e, readWavInfo bytes = Except.error e) ↔
      (bytes.length < 12 ∨
        readTag4 bytes 0 ≠ asciiBytes "RIFF" ∨
        readTag4 bytes 8 ≠ asciiBytes "WAVE" ∨
        (scanChunks bytes 12 ⟨0, 0, 0, 0⟩).channels = 0 ∨
        (scanChunks bytes 12 ⟨0, 0, 0, 0⟩).sampleRate = 0 ∨
        (scanChunks bytes 12 ⟨0, 0, 0, 0⟩).bitsPerSample = 0 ∨
        (scanChunks bytes 12 ⟨0, 0, 0, 0⟩).dataBytes = 0 ∨
        wavByteRate (scanChunks bytes 12 ⟨0, 0, 0, 0⟩) ≤ 0) := by
  simp only [readWavInfo]
  split_ifs with h1 h2 h3 h4
  · constructor
    · intro _; exact Or.inl h1
    · intro _; exact ⟨_, rfl⟩
  · constructor
    · intro _
      rcases h2 with h | h
      · exact Or.inr (Or.inl h)
      · exact Or.inr (Or.inr (Or.inl h))
    · intro _; exact ⟨_, rfl⟩
  · constructor
    · intro _
      rcases h3 with h | h | h | h
      · exact Or.inr (Or.inr (Or.inr (Or.inl h)))
      · exact Or.inr (Or.inr (Or.inr (Or.inr (Or.inl h))))
      · exact Or.inr (Or.inr (Or.inr (Or.inr (Or.inr (Or.inl h)))))
      · exact Or.inr (Or.inr (Or.inr (Or.inr (Or.inr (Or.inr (Or.inl h))))))
    · intro _; exact ⟨_, rfl⟩
  · constructor
    · intro _
      exact Or.inr (Or.inr (Or.inr (Or.inr (Or.inr (Or.inr (Or.inr h4))))))
    · intro _; exact ⟨_, rfl⟩
  · constructor
    · rintro ⟨e, he⟩; cases he
    · intro h
      exfalso
      push_neg at h2 h3
      rcases h with h | h | h | h | h | h | h | h
      · exact h1 h
      · exact h (h2.1)
      · exact h (h2.2)
      · exact h3.1 h
      · exact h3.2.1 h
      · exact h3.2.2.1 h
      · exact h3.2.2.2 h
      · exact absurd h (not_le.mpr (wavByteRate_pos _ h3.1 h3.2.1 h3.2.2.1))

/-! ### Reading from concatenated byte buffers -/

theorem readByte_append_right (pre rest : List Nat) (i : Nat) :
    readByte (pre ++ rest) (pre.length + i) = readByte rest i := by
  unfold readByte
  rw [List.getD_append_right _ _ _ _ (Nat.le_add_right _ _), Nat.add_sub_cancel_left]

theorem readLE16_append (pre rest : List Nat) (i : Nat) :
    readLE16 (pre ++ rest) (pre.length + i) = readLE16 rest i := by
  unfold readLE16
  rw [show pre.length + i + 1 = pre.length + (i + 1) by omega,
    readByte_append_right, readByte_append_right]

theorem readLE32_append (pre rest : List Nat) (i : Nat) :
    readLE32 (pre ++ rest) (pre.length + i) = readLE32 rest i := by
  unfold readLE32
  rw [show pre.length + i + 1 = pre.length + (i + 1) by omega,
    show pre.length + i + 2 = pre.length + (i + 2) by omega,
    show pre.length + i + 3 = pre.length + (i + 3) by omega,
    readByte_append_right, readByte_append_right, readByte_append_right,
    readByte_append_right]

theorem readTag4_append (pre rest : List Nat) (i : Nat) :
    readTag4 (pre ++ rest) (pre.length + i) = readTag4 rest i := by
  unfold readTag4
  rw [show pre.length + i + 1 = pre.length + (i + 1) by omega,
    show pre.length + i + 2 = pre.length + (i + 2) by omega,
    show pre.length + i + 3 = pre.length + (i + 3) by omega,
    readByte_append_right, readByte_append_right, readByte_append_right,
    readByte_append_right]

theorem readByte_append_left (l l' : List Nat) (i : Nat) (h : i < l.length) :
    readByte (l ++ l') i = readByte l i := by
  unfold readByte
  rw [List.getD_append _ _ _ _ h]

theorem readLE16_append_left (l l' : List Nat) (i : Nat) (h : i + 1 < l.length) :
    readLE16 (l ++ l') i = readLE16 l i := by
  unfold readLE16
  rw [readByte_append_left _ _ _ (by omega), readByte_append_left _ _ _ h]

theorem readLE32_append_left (l l' : List Nat) (i : Nat) (h : i + 3 < l.length) :
    readLE32 (l ++ l') i = readLE32 l i := by
  unfold readLE32
  rw [readByte_append_left _ _ _ (by omega), readByte_append_left _ _ _ (by omega),
    readByte_append_left _ _ _ (by omega), readByte_append_left _ _ _ h]

theorem readLE32_le32_self (n : Nat) (rest : List Nat) :
    readLE32 (le32 n ++ rest) 0 = n % 2 ^ 32 := by
  simp only [readLE32, readByte, le32, List.cons_append, List.nil_append,
    List.getD_cons_zero, List.getD_cons_succ, Nat.zero_add]
  omega

theorem readTag4_self (t rest : List Nat) (h : t.length = 4) :
    readTag4 (t ++ rest) 0 = t := by
  match t, h with
  | [a, b, c, d], _ =>
    simp [readTag4, readByte]

theorem le16_length (n : Nat) : (le16 n).length = 2 := rfl

theorem le32_length (n : Nat) : (le32 n).length = 4 := rfl

/-! ### Serialized chunks and the scan loop -/

/-- RIFF serialization of a single chunk: 4-byte tag, little-endian
uint32 size, payload, and one zero pad byte when the payload length is
odd (matching the word-aligned advancement of the scan loop and the
layout the chunk builders produce). -/
def chunkBytes (tag payload : List Nat) : List Nat :=
  tag ++ le32 payload.length ++ payload ++
    (if payload.length % 2 = 1 then [0] else [])

theorem chunkBytes_length (tag payload : List Nat) (htag : tag.length = 4) :
    (chunkBytes tag payload).length = 8 + payload.length + payload.length % 2 := by
  have hpad : (if payload.length % 2 = 1 then [0] else ([] : List Nat)).length
      = payload.length % 2 := by
    split_ifs with h
    · simpa using h.symm
    · simpa using (by omega : payload.length % 2 = 0).symm
  simp [chunkBytes, htag, hpad, le32_length]
  omega

/-- The effect of one serialized chunk on the scan state, as a pure
function of its tag and payload. -/
def applyChunk (st : ScanState) (c : List Nat × List Nat) : ScanState :=
  if c.1 = asciiBytes "fmt " then
    if 16 ≤ c.2.length then
      { st with
        channels := readLE16 c.2 2
        sampleRate := readLE32 c.2 4
        bitsPerSample := readLE16 c.2 14 }
    else st
  else if c.1 = asciiBytes "data" then
    { st with dataBytes := c.2.length }
  else st

/-- The payload of the last `fmt ` chunk of declared size ≥ 16 in a chunk
list (the only fmt chunks that update the scan state). -/
def lastFmtPayload : List (List Nat × List Nat) → Option (List Nat)
  | [] => none
  | c :: cs =>
    match lastFmtPayload cs with
    | some p => some p
    | none => if c.1 = asciiBytes "fmt " ∧ 16 ≤ c.2.length then some c.2 else none

/-- The payload of the last `data` chunk in a chunk list. -/
def lastDataPayload : List (List Nat × List Nat) → Option (List Nat)
  | [] => none
  | c :: cs =>
    match lastDataPayload cs with
    | some p => some p
    | none => if c.1 = asciiBytes "data" then some c.2 else none

/-- `scanLoop` ignores the exact amount of fuel as long as it is at least
`bytes.length + 1 - offset` (every iteration advances the offset by at
least 8 bytes). -/
theorem scanLoop_fuel (bytes : List Nat) :
    ∀ f g o st, bytes.length + 1 ≤ f + o → bytes.length + 1 ≤ g + o →
      scanLoop f bytes o st = scanLoop g bytes o st := by
  intro f
  induction f with
  | zero =>
    intro g o st hf hg
    cases g with
    | zero => rfl
    | succ g =>
      simp only [scanLoop]
      rw [if_neg (by omega)]
  | succ f ih =>
    intro g o st hf hg
    cases g with
    | zero =>
      simp only [scanLoop]
      rw [if_neg (by omega)]
    | succ g =>
      simp only [scanLoop]
      split_ifs with h1 h2
      · rfl
      · exact ih g _ _ (by omega) (by omega)
      · rfl

/-- Scanning at the start of a serialized chunk applies that chunk's
update and continues right after it. -/
theorem scanChunks_chunk (pre tag payload rest : List Nat) (st : ScanState)
    (htag : tag.length = 4) (hsz : payload.length < 2 ^ 32) :
    scanChunks (pre ++ (chunkBytes tag payload ++ rest)) pre.length st =
      scanChunks (pre ++ (chunkBytes tag payload ++ rest))
        (pre.length + (chunkBytes tag payload).length)
        (applyChunk st (tag, payload)) := by
  have hcb := chunkBytes_length tag payload htag
  have hshape : pre ++ (chunkBytes tag payload ++ rest) =
      (pre ++ tag) ++ (le32 payload.length ++
        (payload ++ ((if payload.length % 2 = 1 then [0] else []) ++ rest))) := by
    simp [chunkBytes]
  have hlen : (pre ++ (chunkBytes tag payload ++ rest)).length =
      pre.length + (8 + payload.length + payload.length % 2) + rest.length := by
    simp [hcb]
    omega
  have hsize : readLE32 (pre ++ (chunkBytes tag payload ++ rest)) (pre.length + 4)
      = payload.length := by
    rw [hshape, show pre.length + 4 = (pre ++ tag).length + 0 by simp [htag],
      readLE32_append, readLE32_le32_self, Nat.mod_eq_of_lt hsz]
  have htagread : readTag4 (pre ++ (chunkBytes tag payload ++ rest)) pre.length = tag := by
    have hshape' : pre ++ (chunkBytes tag payload ++ rest) =
        pre ++ (tag ++ (le32 payload.length ++ (payload ++
          ((if payload.length % 2 = 1 then [0] else []) ++ rest)))) := by
      simp [chunkBytes]
    rw [hshape', show pre.length = pre.length + 0 by omega, readTag4_append,
      readTag4_self _ _ htag]
  have hstep : scanStep (pre ++ (chunkBytes tag payload ++ rest)) pre.length st
      = applyChunk st (tag, payload) := by
    unfold scanStep applyChunk
    rw [htagread, hsize]
    by_cases hf : tag = asciiBytes "fmt "
    · rw [if_pos hf, if_pos hf]
      by_cases h16 : 16 ≤ payload.length
      · rw [if_pos h16, if_pos h16]
        have hfield : ∀ i : Nat, pre.length + 8 + i = (pre ++ tag ++ le32 payload.length).length + i := by
          intro i
          rw [List.length_append, List.length_append, htag, le32_length]
        have hpagg : (pre ++ tag) ++ (le32 payload.length ++
            (payload ++ ((if payload.length % 2 = 1 then [0] else []) ++ rest))) =
            (pre ++ tag ++ le32 payload.length) ++ (payload ++
              ((if payload.length % 2 = 1 then [0] else []) ++ rest)) := by
          simp
        rw [hshape, hpagg]
        rw [hfield 2, hfield 4, hfield 14, readLE16_append, readLE32_append,
          readLE16_append,
          readLE16_append_left _ _ _ (by omega), readLE32_append_left _ _ _ (by omega),
          readLE16_append_left _ _ _ (by omega)]
      · rw [if_neg h16, if_neg h16]
    · rw [if_neg hf, if_neg hf]
  unfold scanChunks
  conv_lhs => rw [scanLoop]
  rw [if_pos (by omega : (pre.length : Nat) + 8 ≤ (pre ++ (chunkBytes tag payload ++ rest)).length)]
  rw [hsize]
  rw [if_neg (by omega :
    ¬ (pre ++ (chunkBytes tag payload ++ rest)).length < pre.length + 8 + payload.length)]
  rw [hstep]
  rw [show pre.length + 8 + payload.length + payload.length % 2
      = pre.length + (chunkBytes tag payload).length by omega]
  exact scanLoop_fuel _ _ _ _ _ (by omega) (by omega)

/-- Scanning a buffer consisting of a 12-byte header followed by
serialized chunks folds `applyChunk` over the chunk list. -/
theorem scanChunks_serialized :
    ∀ (chunks : List (List Nat × List Nat)) (pre : List Nat) (st : ScanState),
      (∀ c ∈ chunks, c.1.length = 4) → (∀ c ∈ chunks, c.2.length < 2 ^ 32) →
      scanChunks (pre ++ (chunks.map fun c => chunkBytes c.1 c.2).flatten)
          pre.length st
        = chunks.foldl applyChunk st := by
  intro chunks
  induction chunks with
  | nil =>
    intro pre st _ _
    simp only [List.map_nil, List.flatten_nil, List.append_nil, List.foldl_nil]
    unfold scanChunks
    conv_lhs => rw [scanLoop]
    rw [if_neg (by omega)]
  | cons c cs ih =>
    intro pre st htags hszs
    have hc1 : c.1.length = 4 := htags c (List.mem_cons_self _ _)
    have hc2 : c.2.length < 2 ^ 32 := hszs c (List.mem_cons_self _ _)
    have hshape : pre ++ ((c :: cs).map fun x => chunkBytes x.1 x.2).flatten
        = pre ++ (chunkBytes c.1 c.2 ++ (cs.map fun x => chunkBytes x.1 x.2).flatten) := by
      simp
    rw [hshape, scanChunks_chunk pre c.1 c.2 _ st hc1 hc2]
    have hre : pre ++ (chunkBytes c.1 c.2 ++ (cs.map fun x => chunkBytes x.1 x.2).flatten)
        = (pre ++ chunkBytes c.1 c.2) ++ (cs.map fun x => chunkBytes x.1 x.2).flatten := by
      simp
    have hoff : pre.length + (chunkBytes c.1 c.2).length
        = (pre ++ chunkBytes c.1 c.2).length := by simp
    rw [hre, hoff, ih (pre ++ chunkBytes c.1 c.2) _
      (fun x hx => htags x (List.mem_cons_of_mem _ hx))
      (fun x hx => hszs x (List.mem_cons_of_mem _ hx))]
    rfl

/-- Folding `applyChunk` leaves exactly the fmt fields of the last
usable `fmt ` chunk in the state. -/
theorem foldl_applyChunk_fmt :
    ∀ (chunks : List (List Nat × List Nat)) (st : ScanState),
      ((chunks.foldl applyChunk st).channels,
       (chunks.foldl applyChunk st).sampleRate,
       (chunks.foldl applyChunk st).bitsPerSample) =
        match lastFmtPayload chunks with
        | some p => (readLE16 p 2, readLE32 p 4, readLE16 p 14)
        | none => (st.channels, st.sampleRate, st.bitsPerSample) := by
  intro chunks
  induction chunks with
  | nil => intro st; rfl
  | cons c cs ih =>
    intro st
    simp only [List.foldl_cons]
    rw [ih (applyChunk st c)]
    cases h : lastFmtPayload cs with
    | some p => simp [lastFmtPayload, h]
    | none =>
      simp only [lastFmtPayload, h]
      by_cases hp : c.1 = asciiBytes "fmt " ∧ 16 ≤ c.2.length
      · rw [if_pos hp]
        simp [applyChunk, hp.1, hp.2]
      · rw [if_neg hp]
        unfold applyChunk
        split_ifs with h1 h2 h3
        · exact absurd ⟨h1, h2⟩ hp
        · rfl
        · rfl
        · rfl

/-- Folding `applyChunk` leaves exactly the payload length of the last
`data` chunk in the state. -/
theorem foldl_applyChunk_data :
    ∀ (chunks : List (List Nat × List Nat)) (st : ScanState),
      (chunks.foldl applyChunk st).dataBytes =
        match lastDataPayload chunks with
        | some p => p.length
        | none => st.dataBytes := by
  intro chunks
  induction chunks with
  | nil => intro st; rfl
  | cons c cs ih =>
    intro st
    simp only [List.foldl_cons]
    rw [ih (applyChunk st c)]
    cases h : lastDataPayload cs with
    | some p => simp [lastDataPayload, h]
    | none =>
      simp only [lastDataPayload, h]
      by_cases hp : c.1 = asciiBytes "data"
      · rw [if_pos hp]
        have hnf : ¬ c.1 = asciiBytes "fmt " := by rw [hp]; decide
        unfold applyChunk
        rw [if_neg hnf, if_pos hp]
      · rw [if_neg hp]
        unfold applyChunk
        by_cases hf : c.1 = asciiBytes "fmt "
        · rw [if_pos hf]
          by_cases h16 : 16 ≤ c.2.length
          · rw [if_pos h16]
          · rw [if_neg h16]
        · rw [if_neg hf, if_neg hp]

/-- C8: when a scanned buffer holds several `fmt ` (size ≥ 16) or `data`
chunks, `readWavInfo`'s scan reports the fields of the **last** such chunk
before scanning stops — later occurrences silently overwrite earlier
ones; with no such chunk the corresponding fields stay 0. -/
theorem scanChunks_last_wins (hdr : List Nat) (chunks : List (List Nat × List Nat))
    (hhdr : hdr.length = 12)
    (htags : ∀ c ∈ chunks, c.1.length = 4)
    (hszs : ∀ c ∈ chunks, c.2.length < 2 ^ 32) :
    (scanChunks (hdr ++ (chunks.map fun c => chunkBytes c.1 c.2).flatten)
        12 ⟨0, 0, 0, 0⟩).channels
        = (match lastFmtPayload chunks with
            | some p => readLE16 p 2
            | none => 0) ∧
    (scanChunks (hdr ++ (chunks.map fun c => chunkBytes c.1 c.2).flatten)
        12 ⟨0, 0, 0, 0⟩).sampleRate
        = (match lastFmtPayload chunks with
            | some p => readLE32 p 4
            | none => 0) ∧
    (scanChunks (hdr ++ (chunks.map fun c => chunkBytes c.1 c.2).flatten)
        12 ⟨0, 0, 0, 0⟩).bitsPerSample
        = (match lastFmtPayload chunks with
            | some p => readLE16 p 14
            | none => 0) ∧
    (scanChunks (hdr ++ (chunks.map fun c => chunkBytes c.1 c.2).flatten)
        12 ⟨0, 0, 0, 0⟩).dataBytes
        = (match lastDataPayload chunks with
            | some p => p.length
            | none => 0) := by
  rw [show (12 : Nat) = hdr.length from hhdr.symm,
    scanChunks_serialized chunks hdr _ htags hszs]
  have hfmt := foldl_applyChunk_fmt chunks ⟨0, 0, 0, 0⟩
  have hdata := foldl_applyChunk_data chunks ⟨0, 0, 0, 0⟩
  refine ⟨?_, ?_, ?_, ?_⟩
  · cases h : lastFmtPayload chunks <;> rw [h] at hfmt <;>
      simpa using congrArg Prod.fst hfmt
  · cases h : lastFmtPayload chunks <;> rw [h] at hfmt <;>
      simpa using congrArg (fun t => t.2.1) hfmt
  · cases h : lastFmtPayload chunks <;> rw [h] at hfmt <;>
      simpa using congrArg (fun t => t.2.2) hfmt
  · cases h : lastDataPayload chunks <;> rw [h] at hdata <;> simpa using hdata
/-- Witness for C8: a buffer with two `fmt ` chunks and two `data` chunks;
the reported fields come from the second fmt chunk (1 channel, 44100 Hz,
8 bits) and the second data chunk (2 bytes), not the first ones. -/
theorem scanChunks_last_wins_witness :
    scanChunks
        ((asciiBytes "RIFF" ++ le32 4 ++ asciiBytes "WAVE") ++
          (([(asciiBytes "fmt ", [1, 0, 2, 0, 64, 31, 0, 0, 0, 0, 0, 0, 0, 0, 16, 0]),
             (asciiBytes "fmt ", [1, 0, 1, 0, 68, 172, 0, 0, 0, 0, 0, 0, 0, 0, 8, 0]),
             (asciiBytes "data", [5]),
             (asciiBytes "data", [7, 8])].map fun c => chunkBytes c.1 c.2).flatten))
        12 ⟨0, 0, 0, 0⟩ = ⟨1, 44100, 8, 2⟩ := by
  have h := scanChunks_last_wins
    (asciiBytes "RIFF" ++ le32 4 ++ asciiBytes "WAVE")
    [(asciiBytes "fmt ", [1, 0, 2, 0, 64, 31, 0, 0, 0, 0, 0, 0, 0, 0, 16, 0]),
     (asciiBytes "fmt ", [1, 0, 1, 0, 68, 172, 0, 0, 0, 0, 0, 0, 0, 0, 8, 0]),
     (asciiBytes "data", [5]),
     (asciiBytes "data", [7, 8])]
    (by decide) (by decide) (by decide)
  obtain ⟨h1, h2, h3, h4⟩ := h
  have ef : lastFmtPayload
      [(asciiBytes "fmt ", [1, 0, 2, 0, 64, 31, 0, 0, 0, 0, 0, 0, 0, 0, 16, 0]),
       (asciiBytes "fmt ", [1, 0, 1, 0, 68, 172, 0, 0, 0, 0, 0, 0, 0, 0, 8, 0]),
       (asciiBytes "data", [5]),
       (asciiBytes "data", [7, 8])]
      = some [1, 0, 1, 0, 68, 172, 0, 0, 0, 0, 0, 0, 0, 0, 8, 0] := by decide
  have ed : lastDataPayload
      [(asciiBytes "fmt ", [1, 0, 2, 0, 64, 31, 0, 0, 0, 0, 0, 0, 0, 0, 16, 0]),
       (asciiBytes "fmt ", [1, 0, 1, 0, 68, 172, 0, 0, 0, 0, 0, 0, 0, 0, 8, 0]),
       (asciiBytes "data", [5]),
       (asciiBytes "data", [7, 8])]
      = some [7, 8] := by decide
  simp only [ef, ed] at h1 h2 h3 h4
  have r1 : readLE16 [1, 0, 1, 0, 68, 172, 0, 0, 0, 0, 0, 0, 0, 0, 8, 0] 2 = 1 := by decide
  have r2 : readLE32 [1, 0, 1, 0, 68, 172, 0, 0, 0, 0, 0, 0, 0, 0, 8, 0] 4 = 44100 := by decide
  have r3 : readLE16 [1, 0, 1, 0, 68, 172, 0, 0, 0, 0, 0, 0, 0, 0, 8, 0] 14 = 8 := by decide
  have r4 : ([7, 8] : List Nat).length = 2 := by decide
  rw [r1] at h1
  rw [r2] at h2
  rw [r3] at h3
  rw [r4] at h4
  have hext : ∀ st : ScanState, st.channels = 1 → st.sampleRate = 44100 →
      st.bitsPerSample = 8 → st.dataBytes = 2 → st = ⟨1, 44100, 8, 2⟩ := by
    intro st e1 e2 e3 e4
    cases st
    simp only at e1 e2 e3 e4
    rw [e1, e2, e3, e4]
  exact hext _ h1 h2 h3 h4

/-! ### The PCM16 quantizer -/

/-- A JavaScript `number` as the quantizer sees it: NaN, the two
infinities, or a finite value (finite arithmetic is modelled exactly; the
clamped products `x * 0x8000` / `x * 0x7fff` stay within the exactly
representable comparisons the claims require). -/
inductive JsNum where
  | nan : JsNum
  | posInf : JsNum
  | negInf : JsNum
  | fin : ℚ → JsNum
deriving DecidableEq

/-- `x > c` for a finite constant `c` (`NaN > c` is false). -/
def JsNum.gtNum : JsNum → ℚ → Bool
  | JsNum.nan, _ => false
  | JsNum.posInf, _ => true
  | JsNum.negInf, _ => false
  | JsNum.fin q, c => decide (c < q)

/-- `x < c` for a finite constant `c` (`NaN < c` is false). -/
def JsNum.ltNum : JsNum → ℚ → Bool
  | JsNum.nan, _ => false
  | JsNum.posInf, _ => false
  | JsNum.negInf, _ => true
  | JsNum.fin q, c => decide (q < c)

/-- Multiplication by a positive finite constant. -/
def JsNum.mulPosConst : JsNum → ℚ → JsNum
  | JsNum.nan, _ => JsNum.nan
  | JsNum.posInf, _ => JsNum.posInf
  | JsNum.negInf, _ => JsNum.negInf
  | JsNum.fin q, c => JsNum.fin (q * c)

/-- Truncation toward zero of a finite value (the integer part of
ECMAScript's `ToInt32`). -/
def jsTrunc (q : ℚ) : Int := if q < 0 then ⌈q⌉ else ⌊q⌋

/-- ECMAScript `ToInt32` (the `| 0` coercion): NaN and the infinities map
to 0, finite values are truncated toward zero and wrapped into
`[-2^31, 2^31)`. -/
def jsToInt32 : JsNum → Int
  | JsNum.fin q =>
    if 2 ^ 31 ≤ jsTrunc q % 2 ^ 32 then jsTrunc q % 2 ^ 32 - 2 ^ 32
    else jsTrunc q % 2 ^ 32
  | _ => 0

/-- `clampInt16` from `exportWav.ts`: clamp to `[-1, 1]` (NaN fails both
comparisons and is left unchanged), scale by `0x8000` for negative values
and `0x7fff` otherwise, and apply `| 0`. -/
def clampInt16 (x : JsNum) : Int :=
  let x1 := if x.gtNum 1 then JsNum.fin 1 else x
  let x2 := if x1.ltNum (-1) then JsNum.fin (-1) else x1
  jsToInt32 (if x2.ltNum 0 then x2.mulPosConst 32768 else x2.mulPosConst 32767)

/-- The quantizer as the specification words it: clamp to `[-1, 1]`, then
truncate `x * 32768` toward zero if `x < 0` and `x * 32767` otherwise. -/
def quantizeSpec (q : ℚ) : Int :=
  if max (-1) (min 1 q) < 0 then jsTrunc (max (-1) (min 1 q) * 32768)
  else jsTrunc (max (-1) (min 1 q) * 32767)

theorem jsToInt32_fin_eq (q : ℚ) (h1 : -(2 ^ 31) ≤ jsTrunc q)
    (h2 : jsTrunc q < 2 ^ 31) : jsToInt32 (JsNum.fin q) = jsTrunc q := by
  simp only [jsToInt32]
  omega

theorem jsTrunc_neg_bounds (q : ℚ) (hlo : -1 ≤ q) (hhi : q < 0) :
    -32768 ≤ jsTrunc (q * 32768) ∧ jsTrunc (q * 32768) ≤ 0 := by
  have hneg : q * 32768 < 0 := by linarith
  have h1 : (-32768 : ℚ) ≤ q * 32768 := by linarith
  have h2 : q * 32768 ≤ 0 := le_of_lt hneg
  unfold jsTrunc
  rw [if_pos hneg]
  constructor
  · calc (-32768 : ℤ) = ⌈((-32768 : ℤ) : ℚ)⌉ := by rw [Int.ceil_intCast]
      _ ≤ ⌈q * 32768⌉ := Int.ceil_mono (by exact_mod_cast h1)
  · calc ⌈q * 32768⌉ ≤ ⌈((0 : ℤ) : ℚ)⌉ := Int.ceil_mono (by exact_mod_cast h2)
      _ = 0 := by rw [Int.ceil_intCast]

theorem jsTrunc_nonneg_bounds (q : ℚ) (hlo : 0 ≤ q) (hhi : q ≤ 1) :
    0 ≤ jsTrunc (q * 32767) ∧ jsTrunc (q * 32767) ≤ 32767 := by
  have h0 : (0 : ℚ) ≤ q * 32767 := by positivity
  have h1 : q * 32767 ≤ 32767 := by linarith
  unfold jsTrunc
  rw [if_neg (not_lt.mpr h0)]
  constructor
  · calc (0 : ℤ) = ⌊((0 : ℤ) : ℚ)⌋ := by rw [Int.floor_intCast]
      _ ≤ ⌊q * 32767⌋ := Int.floor_mono (by exact_mod_cast h0)
  · calc ⌊q * 32767⌋ ≤ ⌊((32767 : ℤ) : ℚ)⌋ := Int.floor_mono (by exact_mod_cast h1)
      _ = 32767 := by rw [Int.floor_intCast]

theorem jsTrunc_intCast (z : ℤ) : jsTrunc ((z : ℚ)) = z := by
  unfold jsTrunc
  split_ifs with h
  · exact Int.ceil_intCast z
  · exact Int.floor_intCast z

theorem clampInt16_fin_gt (q : ℚ) (hq1 : 1 < q) :
    clampInt16 (JsNum.fin q) = 32767 := by
  have hg : JsNum.gtNum (JsNum.fin q) 1 = true := by
    simp only [JsNum.gtNum, decide_eq_true_eq]; exact hq1
  have hl : JsNum.ltNum (JsNum.fin 1) (-1) = false := by
    simp only [JsNum.ltNum, decide_eq_false_iff_not]; norm_num
  have hl0 : JsNum.ltNum (JsNum.fin 1) 0 = false := by
    simp only [JsNum.ltNum, decide_eq_false_iff_not]; norm_num
  simp only [clampInt16, hg, hl, hl0, if_true, if_false, Bool.false_eq_true,
    JsNum.mulPosConst]
  rw [show (1 : ℚ) * 32767 = ((32767 : ℤ) : ℚ) by norm_num]
  simp only [jsToInt32, jsTrunc_intCast]
  norm_num

theorem clampInt16_fin_lt (q : ℚ) (hq2 : q < -1) :
    clampInt16 (JsNum.fin q) = -32768 := by
  have hg : JsNum.gtNum (JsNum.fin q) 1 = false := by
    simp only [JsNum.gtNum, decide_eq_false_iff_not]
    intro h; linarith
  have hl : JsNum.ltNum (JsNum.fin q) (-1) = true := by
    simp only [JsNum.ltNum, decide_eq_true_eq]; exact hq2
  have hl0 : JsNum.ltNum (JsNum.fin (-1)) 0 = true := by
    simp only [JsNum.ltNum, decide_eq_true_eq]; norm_num
  simp only [clampInt16, hg, hl, hl0, if_true, if_false, Bool.false_eq_true,
    JsNum.mulPosConst]
  rw [show (-1 : ℚ) * 32768 = ((-32768 : ℤ) : ℚ) by norm_num]
  simp only [jsToInt32, jsTrunc_intCast]
  norm_num

theorem clampInt16_fin_neg (q : ℚ) (hlo : -1 ≤ q) (hq0 : q < 0) :
    clampInt16 (JsNum.fin q) = jsTrunc (q * 32768) := by
  have hg : JsNum.gtNum (JsNum.fin q) 1 = false := by
    simp only [JsNum.gtNum, decide_eq_false_iff_not]
    intro h; linarith
  have hl : JsNum.ltNum (JsNum.fin q) (-1) = false := by
    simp only [JsNum.ltNum, decide_eq_false_iff_not]
    exact not_lt.mpr hlo
  have hl0 : JsNum.ltNum (JsNum.fin q) 0 = true := by
    simp only [JsNum.ltNum, decide_eq_true_eq]; exact hq0
  simp only [clampInt16, hg, hl, hl0, if_true, if_false, Bool.false_eq_true,
    JsNum.mulPosConst]
  have hb := jsTrunc_neg_bounds q hlo hq0
  exact jsToInt32_fin_eq _ (by omega) (by omega)

theorem clampInt16_fin_nonneg (q : ℚ) (hq0 : 0 ≤ q) (hhi : q ≤ 1) :
    clampInt16 (JsNum.fin q) = jsTrunc (q * 32767) := by
  have hg : JsNum.gtNum (JsNum.fin q) 1 = false := by
    simp only [JsNum.gtNum, decide_eq_false_iff_not]
    intro h; linarith
  have hl : JsNum.ltNum (JsNum.fin q) (-1) = false := by
    simp only [JsNum.ltNum, decide_eq_false_iff_not]
    intro h; linarith
  have hl0 : JsNum.ltNum (JsNum.fin q) 0 = false := by
    simp only [JsNum.ltNum, decide_eq_false_iff_not]
    exact not_lt.mpr hq0
  simp only [clampInt16, hg, hl, hl0, if_true, if_false, Bool.false_eq_true,
    JsNum.mulPosConst]
  have hb := jsTrunc_nonneg_bounds q hq0 hhi
  exact jsToInt32_fin_eq _ (by omega) (by omega)

/-- The faithful quantizer agrees with the specification's formula on
every finite input. -/
theorem clampInt16_fin (q : ℚ) : clampInt16 (JsNum.fin q) = quantizeSpec q := by
  by_cases hq1 : (1 : ℚ) < q
  · have hmax : max (-1) (min 1 q) = (1 : ℚ) := by
      rw [min_eq_left (le_of_lt hq1)]
      exact max_eq_right (by norm_num)
    rw [clampInt16_fin_gt q hq1]
    simp only [quantizeSpec, hmax]
    rw [if_neg (by norm_num),
      show (1 : ℚ) * 32767 = ((32767 : ℤ) : ℚ) by norm_num, jsTrunc_intCast]
  · by_cases hq2 : q < -1
    · have hmax : max (-1) (min 1 q) = (-1 : ℚ) := by
        rw [min_eq_right (by linarith)]
        exact max_eq_left (le_of_lt hq2)
      rw [clampInt16_fin_lt q hq2]
      simp only [quantizeSpec, hmax]
      rw [if_pos (by norm_num),
        show (-1 : ℚ) * 32768 = ((-32768 : ℤ) : ℚ) by norm_num, jsTrunc_intCast]
    · have hlo : -1 ≤ q := not_lt.mp hq2
      have hhi : q ≤ 1 := not_lt.mp hq1
      have hmax : max (-1) (min 1 q) = q := by
        rw [min_eq_right hhi]
        exact max_eq_right hlo
      by_cases hq0 : q < 0
      · rw [clampInt16_fin_neg q hlo hq0]
        simp only [quantizeSpec, hmax]
        rw [if_pos hq0]
      · rw [clampInt16_fin_nonneg q (not_lt.mp hq0) hhi]
        simp only [quantizeSpec, hmax]
        rw [if_neg hq0]

theorem quantizeSpec_bounds (q : ℚ) :
    -32768 ≤ quantizeSpec q ∧ quantizeSpec q ≤ 32767 := by
  have hy1 : -1 ≤ max (-1) (min 1 q) := le_max_left _ _
  have hy2 : max (-1) (min 1 q) ≤ 1 := max_le (by norm_num) (min_le_left _ _)
  unfold quantizeSpec
  split_ifs with h0
  · have hb := jsTrunc_neg_bounds _ hy1 h0
    omega
  · have hb := jsTrunc_nonneg_bounds _ (not_lt.mp h0) hy2
    omega

/-- C5: the PCM16 quantizer clamps its input to `[-1, 1]` and then
truncates `x * 32768` toward zero for negative values and `x * 32767`
otherwise; in particular it maps 1 to 32767, -1 to -32768, 0 to 0, 2 to
32767 and -2 to -32768. -/
theorem clampInt16_spec :
    (∀ q : ℚ, clampInt16 (JsNum.fin q) = quantizeSpec q) ∧
    clampInt16 (JsNum.fin 1) = 32767 ∧
    clampInt16 (JsNum.fin (-1)) = -32768 ∧
    clampInt16 (JsNum.fin 0) = 0 ∧
    clampInt16 (JsNum.fin 2) = 32767 ∧
    clampInt16 (JsNum.fin (-2)) = -32768 := by
  refine ⟨clampInt16_fin, ?_, ?_, ?_, ?_, ?_⟩
  · rw [clampInt16_fin_nonneg 1 (by norm_num) (by norm_num),
      show (1 : ℚ) * 32767 = ((32767 : ℤ) : ℚ) by norm_num, jsTrunc_intCast]
  · rw [clampInt16_fin_neg (-1) (by norm_num) (by norm_num),
      show (-1 : ℚ) * 32768 = ((-32768 : ℤ) : ℚ) by norm_num, jsTrunc_intCast]
  · rw [clampInt16_fin_nonneg 0 (by norm_num) (by norm_num),
      show (0 : ℚ) * 32767 = ((0 : ℤ) : ℚ) by norm_num, jsTrunc_intCast]
  · exact clampInt16_fin_gt 2 (by norm_num)
  · exact clampInt16_fin_lt (-2) (by norm_num)

/-- `clampInt16` on the non-finite inputs: NaN reaches `| 0` unchanged
(all three comparisons are false on NaN) and maps to 0. -/
theorem clampInt16_nan : clampInt16 JsNum.nan = 0 := rfl

theorem clampInt16_posInf : clampInt16 JsNum.posInf = 32767 := by
  have hl : JsNum.ltNum (JsNum.fin 1) (-1) = false := by
    simp only [JsNum.ltNum, decide_eq_false_iff_not]; norm_num
  have hl0 : JsNum.ltNum (JsNum.fin 1) 0 = false := by
    simp only [JsNum.ltNum, decide_eq_false_iff_not]; norm_num
  simp only [clampInt16, JsNum.gtNum, hl, hl0, if_true, if_false, Bool.false_eq_true,
    JsNum.mulPosConst]
  rw [show (1 : ℚ) * 32767 = ((32767 : ℤ) : ℚ) by norm_num]
  simp only [jsToInt32, jsTrunc_intCast]
  norm_num

theorem clampInt16_negInf : clampInt16 JsNum.negInf = -32768 := by
  have hl0 : JsNum.ltNum (JsNum.fin (-1)) 0 = true := by
    simp only [JsNum.ltNum, decide_eq_true_eq]; norm_num
  simp only [clampInt16, JsNum.gtNum, JsNum.ltNum, hl0, if_true, if_false,
    Bool.false_eq_true, JsNum.mulPosConst]
  have ht : jsTrunc ((-32768 : ℚ)) = (-32768 : ℤ) := by
    rw [show ((-32768 : ℚ)) = ((-32768 : ℤ) : ℚ) by norm_num, jsTrunc_intCast]
  norm_num [jsToInt32, ht]

/-- C10: the quantizer is total and its result always lies in
`[-32768, 32767]`, also on NaN and the infinities; NaN (which fails both
clamp comparisons and the sign test) maps to 0. -/
theorem clampInt16_total_range :
    (∀ x : JsNum, -32768 ≤ clampInt16 x ∧ clampInt16 x ≤ 32767) ∧
    clampInt16 JsNum.nan = 0 ∧
    clampInt16 JsNum.posInf = 32767 ∧
    clampInt16 JsNum.negInf = -32768 := by
  refine ⟨?_, clampInt16_nan, clampInt16_posInf, clampInt16_negInf⟩
  intro x
  cases x with
  | nan => rw [clampInt16_nan]; omega
  | posInf => rw [clampInt16_posInf]; omega
  | negInf => rw [clampInt16_negInf]; omega
  | fin q =>
    rw [clampInt16_fin]
    exact quantizeSpec_bounds q

/-! ### The key-range region mapper -/

/-- One region of the AcDry kit metadata (`AcDryRegion` in
`exportWav.ts`). -/
structure AcDryRegion where
  sample_start : Int
  sample_end : Int
  sample_lokey : Int
  sample_hikey : Int
  sound_rootnote : Int
deriving DecidableEq, Repr, Inhabited

/-- The midpoint loop of `buildAcDryRegions`: for each adjacent pair
`(prev, cur)` of the note list it pushes `Math.floor((prev+cur+1)/2)`. -/
def midBoundaries : List Int → List Int
  | a :: b :: rest => (a + b + 1).fdiv 2 :: midBoundaries (b :: rest)
  | _ => []

/-- The boundary list of `buildAcDryRegions`:
`[0, midpoints..., 127]` (built only for a nonempty note list). -/
def acDryBoundaries (sortedNotes : List Int) : List Int :=
  0 :: (midBoundaries sortedNotes ++ [127])

/-- The region-emitting loop of `buildAcDryRegions`, with the loop index
`i` and mutable `currentFrame` explicit; `fuel = sortedNotes.length - i`
at every call, so `sortedNotes.length` units suffice from `i = 0`. -/
def regionsLoop : Nat → List Int → List Int → List Int → Nat → Int → List AcDryRegion
  | 0, _, _, _, _, _ => []
  | fuel + 1, sortedNotes, frameLengths, bnds, i, currentFrame =>
    if i < sortedNotes.length then
      if frameLengths.getD i 0 ≤ 0 then
        regionsLoop fuel sortedNotes frameLengths bnds (i + 1) currentFrame
      else
        { sample_start := currentFrame
          sample_end := currentFrame + frameLengths.getD i 0
          sample_lokey := bnds.getD i 0
          sample_hikey := bnds.getD (i + 1) 127
          sound_rootnote := sortedNotes.getD i 0 } ::
          regionsLoop fuel sortedNotes frameLengths bnds (i + 1)
            (currentFrame + frameLengths.getD i 0)
    else []

/-- `buildAcDryRegions` from `exportWav.ts`: midpoint boundaries plus the
cumulative-frame loop that skips items with nonpositive frame count
(`frameLengthsByIndex[i] ?? 0`, `boundaries[i] ?? 0`,
`boundaries[i+1] ?? 127` are the source's defaulted indexings). -/
def buildAcDryRegions (sortedNotes frameLengths : List Int) : List AcDryRegion :=
  if sortedNotes.length = 0 then []
  else
    regionsLoop sortedNotes.length sortedNotes frameLengths
      (acDryBoundaries sortedNotes) 0 0

theorem midBoundaries_length :
    ∀ l : List Int, (midBoundaries l).length = l.length - 1 := by
  intro l
  induction l with
  | nil => rfl
  | cons a t ih =>
    cases t with
    | nil => rfl
    | cons b r =>
      simp only [midBoundaries, List.length_cons]
      rw [ih]
      simp

theorem acDryBoundaries_length (notes : List Int) (hne : notes ≠ []) :
    (acDryBoundaries notes).length = notes.length + 1 := by
  have h1 : 1 ≤ notes.length := by
    cases notes with
    | nil => exact absurd rfl hne
    | cons a t => simp
  simp only [acDryBoundaries, List.length_cons, List.length_append,
    midBoundaries_length]
  simp
  omega

theorem midBoundaries_getD :
    ∀ (l : List Int) (i : Nat), i + 1 < l.length →
      (midBoundaries l).getD i 0
        = (l.getD i 0 + l.getD (i + 1) 0 + 1).fdiv 2 := by
  intro l
  induction l with
  | nil => intro i hi; simp at hi
  | cons a t ih =>
    intro i hi
    cases t with
    | nil => simp at hi
    | cons b r =>
      cases i with
      | zero => rfl
      | succ i =>
        simp only [midBoundaries, List.getD_cons_succ]
        exact ih i (by simpa using hi)

theorem acDryBoundaries_getD_zero (notes : List Int) :
    (acDryBoundaries notes).getD 0 0 = 0 := rfl

theorem acDryBoundaries_getD_mid (notes : List Int) (i : Nat)
    (h1 : 1 ≤ i) (h2 : i < notes.length) :
    (acDryBoundaries notes).getD i 0
      = (notes.getD (i - 1) 0 + notes.getD i 0 + 1).fdiv 2 := by
  obtain ⟨j, rfl⟩ : ∃ j, i = j + 1 := ⟨i - 1, by omega⟩
  simp only [acDryBoundaries, List.getD_cons_succ]
  rw [List.getD_append _ _ _ _ (by rw [midBoundaries_length]; omega)]
  rw [midBoundaries_getD notes j (by omega)]
  simp

theorem acDryBoundaries_getD_last (notes : List Int) (hne : notes ≠ []) :
    (acDryBoundaries notes).getD notes.length 0 = 127 := by
  have h1 : 1 ≤ notes.length := by
    cases notes with
    | nil => exact absurd rfl hne
    | cons a t => simp
  obtain ⟨j, hj⟩ : ∃ j, notes.length = j + 1 := ⟨notes.length - 1, by omega⟩
  rw [hj]
  simp only [acDryBoundaries, List.getD_cons_succ]
  rw [List.getD_append_right _ _ _ _ (by rw [midBoundaries_length]; omega)]
  rw [midBoundaries_length, hj]
  rw [show j - (j + 1 - 1) = 0 by omega]
  rfl

/-- With positive frame lengths (one per note) no item is skipped: the
loop from index `i` emits one region per remaining note, and region `k`
carries the adjacent boundary pair at `i + k` and the note at `i + k`. -/
theorem regionsLoop_pos (notes fls bnds : List Int)
    (hlen : fls.length = notes.length) (hpos : ∀ f ∈ fls, 0 < f) :
    ∀ fuel i cur, notes.length ≤ i + fuel →
      (regionsLoop fuel notes fls bnds i cur).length = notes.length - i ∧
      (∀ k, k < notes.length - i →
        ((regionsLoop fuel notes fls bnds i cur).getD k default).sample_lokey
            = bnds.getD (i + k) 0 ∧
        ((regionsLoop fuel notes fls bnds i cur).getD k default).sample_hikey
            = bnds.getD (i + k + 1) 127 ∧
        ((regionsLoop fuel notes fls bnds i cur).getD k default).sound_rootnote
            = notes.getD (i + k) 0) := by
  intro fuel
  induction fuel with
  | zero =>
    intro i cur hf
    refine ⟨by simp [regionsLoop]; omega, ?_⟩
    intro k hk
    omega
  | succ fuel ih =>
    intro i cur hf
    by_cases hi : i < notes.length
    · have hfr : 0 < fls.getD i 0 := by
        have hmem : fls.getD i 0 ∈ fls := by
          rw [List.getD_eq_getElem _ _ (by omega)]
          exact List.getElem_mem _
        exact hpos _ hmem
      simp only [regionsLoop, if_pos hi, if_neg (by omega : ¬ fls.getD i 0 ≤ 0)]
      obtain ⟨ihl, ihk⟩ := ih (i + 1) (cur + fls.getD i 0) (by omega)
      refine ⟨by rw [List.length_cons, ihl]; omega, ?_⟩
      intro k hk
      cases k with
      | zero =>
        refine ⟨?_, ?_, ?_⟩ <;> simp
      | succ k =>
        simp only [List.getD_cons_succ]
        have h := ihk k (by omega)
        rw [show i + (k + 1) = i + 1 + k by omega,
          show i + 1 + k + 1 = i + 1 + k + 1 by omega]
        exact h
    · refine ⟨by simp [regionsLoop, if_neg hi]; omega, ?_⟩
      intro k hk
      omega

theorem ne_nil_length_pos {α : Type} (l : List α) (h : l ≠ []) : 1 ≤ l.length := by
  cases l with
  | nil => exact absurd rfl h
  | cons a t => simp

/-- For a strictly ascending pair `a < b`, the midpoint
`floor((a+b+1)/2)` lies in `(a, b]`. -/
theorem mid_between (a b : Int) (h : a < b) :
    a < (a + b + 1).fdiv 2 ∧ (a + b + 1).fdiv 2 ≤ b := by
  rw [Int.fdiv_eq_ediv _ (by omega)]
  omega

/-- For a strictly ascending note list bounded by 127, the midpoints
followed by 127 form a `≤`-chain, and every midpoint exceeds the first
note. -/
theorem midBoundaries_facts :
    ∀ (l : List Int) (a : Int), List.Chain' (· < ·) (a :: l) →
      (∀ x ∈ a :: l, x ≤ 127) →
      List.Chain' (· ≤ ·) (midBoundaries (a :: l) ++ [127]) ∧
      (∀ m ∈ midBoundaries (a :: l), a < m) := by
  intro l
  induction l with
  | nil =>
    intro a _ _
    exact ⟨List.chain'_singleton _, by intro m hm; simp [midBoundaries] at hm⟩
  | cons b t ih =>
    intro a hchain hle
    have hab : a < b := List.chain'_cons.mp hchain |>.1
    have hchain' : List.Chain' (· < ·) (b :: t) := List.chain'_cons.mp hchain |>.2
    have hle' : ∀ x ∈ b :: t, x ≤ 127 := fun x hx => hle x (List.mem_cons_of_mem _ hx)
    obtain ⟨ihchain, ihmem⟩ := ih b hchain' hle'
    have hm := mid_between a b hab
    have hb127 : b ≤ 127 := hle b (List.mem_cons_of_mem _ (List.mem_cons_self _ _))
    constructor
    · rw [show midBoundaries (a :: b :: t) = (a + b + 1).fdiv 2 :: midBoundaries (b :: t)
        from rfl, List.cons_append]
      rw [List.chain'_cons']
      refine ⟨?_, ihchain⟩
      intro y hy
      cases hmb : midBoundaries (b :: t) with
      | nil =>
        rw [hmb] at hy
        simp at hy
        omega
      | cons m1 ms =>
        rw [hmb] at hy
        simp at hy
        have hbm1 : b < m1 := ihmem m1 (by rw [hmb]; exact List.mem_cons_self _ _)
        omega
    · intro m hm
      rw [show midBoundaries (a :: b :: t) = (a + b + 1).fdiv 2 :: midBoundaries (b :: t)
        from rfl] at hm
      rcases List.mem_cons.mp hm with h | h
      · omega
      · have := ihmem m h
        omega

/-- The full boundary list is a `≤`-chain. -/
theorem acDryBoundaries_chain (notes : List Int) (hne : notes ≠ [])
    (hsort : List.Chain' (· < ·) notes)
    (hrange : ∀ x ∈ notes, 0 ≤ x ∧ x ≤ 127) :
    List.Chain' (· ≤ ·) (acDryBoundaries notes) := by
   cases notes with
  | nil => exact absurd rfl hne
  | cons a l =>
    obtain ⟨hchain, hmem⟩ := midBoundaries_facts l a hsort
      (fun x hx => (hrange x hx).2)
    have ha0 : 0 ≤ a := (hrange a (List.mem_cons_self _ _)).1
    rw [acDryBoundaries, List.chain'_cons']
    refine ⟨?_, hchain⟩
    intro y hy
    cases hmb : midBoundaries (a :: l) with
    | nil =>
      rw [hmb] at hy
      simp at hy
      omega
    | cons m1 ms =>
      rw [hmb] at hy
      simp at hy
      have := hmem m1 (by rw [hmb]; exact List.mem_cons_self _ _)
      omega

/-- A `≤`-chain is monotone in its defaulted indexing. -/
theorem chain'_le_getD (l : List Int) (h : List.Chain' (· ≤ ·) l)
    (i j : Nat) (hij : i ≤ j) (hj : j < l.length) :
    l.getD i 0 ≤ l.getD j 0 := by
  rcases Nat.lt_or_ge i j with hlt | hge
  · have hp := (List.chain'_iff_pairwise).mp h
    have := (List.pairwise_iff_getElem).mp hp i j (by omega) hj hlt
    rw [List.getD_eq_getElem _ _ (by omega), List.getD_eq_getElem _ _ hj]
    exact this
  · have : i = j := by omega
    rw [this]

/-- Every point between the first and the last entry of a `≤`-chain lies
between some adjacent pair. -/
theorem chain_cover :
    ∀ (l : List Int), List.Chain' (· ≤ ·) l → 2 ≤ l.length →
      ∀ k : Int, l.getD 0 0 ≤ k → k ≤ l.getD (l.length - 1) 0 →
      ∃ i, i + 1 < l.length ∧ l.getD i 0 ≤ k ∧ k ≤ l.getD (i + 1) 0 := by
  intro l
  induction l with
  | nil => intro _ h2; simp at h2
  | cons a t ih =>
    intro hchain h2 k hk1 hk2
    cases t with
    | nil => simp at h2
    | cons b t' =>
      by_cases hkb : k ≤ b
      · exact ⟨0, by simp, hk1, hkb⟩
      · cases t' with
        | nil =>
          simp at hk2
          omega
        | cons c t'' =>
          have hchain' : List.Chain' (· ≤ ·) (b :: c :: t'') :=
            (List.chain'_cons.mp hchain).2
          obtain ⟨i, hi1, hi2, hi3⟩ := ih hchain' (by simp) k (by
              simpa using le_of_lt (not_le.mp hkb)) (by
              simpa using hk2)
          exact ⟨i + 1, by simpa using hi1, by simpa using hi2, by simpa using hi3⟩

theorem getD_default_eq (l : List Int) (n : Nat) (h : n < l.length)
    (d d' : Int) : l.getD n d = l.getD n d' := by
  rw [List.getD_eq_getElem l d h, List.getD_eq_getElem l d' h]

/-- C6: for an ascending list of `n` distinct MIDI notes the boundary
list has `n + 1` entries — `0`, then `floor((prev+cur+1)/2)` for every
adjacent pair, then `127` — and (with positive frame counts) region `i`
spans `[boundaries[i], boundaries[i+1]]` with root note `notes[i]`; for
notes `[60, 64, 67]` the boundaries are `[0, 62, 66, 127]`. -/
theorem buildAcDryRegions_boundary_spec (notes fls : List Int)
    (hne : notes ≠ [])
    (hsort : List.Chain' (· < ·) notes)
    (hrange : ∀ x ∈ notes, 0 ≤ x ∧ x ≤ 127)
    (hlen : fls.length = notes.length)
    (hpos : ∀ f ∈ fls, 0 < f) :
    (acDryBoundaries notes).length = notes.length + 1 ∧
    (acDryBoundaries notes).getD 0 0 = 0 ∧
    (∀ i, 1 ≤ i → i < notes.length →
      (acDryBoundaries notes).getD i 0
        = (notes.getD (i - 1) 0 + notes.getD i 0 + 1).fdiv 2) ∧
    (acDryBoundaries notes).getD notes.length 0 = 127 ∧
    (buildAcDryRegions notes fls).length = notes.length ∧
    (∀ i, i < notes.length →
      ((buildAcDryRegions notes fls).getD i default).sample_lokey
          = (acDryBoundaries notes).getD i 0 ∧
      ((buildAcDryRegions notes fls).getD i default).sample_hikey
          = (acDryBoundaries notes).getD (i + 1) 0 ∧
      ((buildAcDryRegions notes fls).getD i default).sound_rootnote
          = notes.getD i 0) ∧
    acDryBoundaries [60, 64, 67] = [0, 62, 66, 127] := by
  have hn1 : 1 ≤ notes.length := ne_nil_length_pos notes hne
  have hblen := acDryBoundaries_length notes hne
  have hbuild : buildAcDryRegions notes fls
      = regionsLoop notes.length notes fls (acDryBoundaries notes) 0 0 := by
    unfold buildAcDryRegions
    rw [if_neg (by omega)]
  obtain ⟨hrl, hrk⟩ := regionsLoop_pos notes fls (acDryBoundaries notes)
    hlen hpos notes.length 0 0 (by omega)
  simp only [Nat.zero_add, Nat.sub_zero] at hrl hrk
  refine ⟨hblen, acDryBoundaries_getD_zero notes, ?_,
    acDryBoundaries_getD_last notes hne, ?_, ?_, by decide⟩
  · intro i h1 h2
    exact acDryBoundaries_getD_mid notes i h1 h2
  · rw [hbuild, hrl]
  · intro i hi
    obtain ⟨hk1, hk2, hk3⟩ := hrk i hi
    refine ⟨?_, ?_, ?_⟩
    · rw [hbuild]; exact hk1
    · rw [hbuild, hk2]
      exact getD_default_eq (acDryBoundaries notes) (i + 1) (by omega) 127 0
    · rw [hbuild]; exact hk3

/-- Witness for C6 at notes `[60, 64, 67]` with frame lengths
`[1, 1, 1]`. -/
theorem buildAcDryRegions_boundary_spec_witness :
    (acDryBoundaries [60, 64, 67]).length = ([60, 64, 67] : List Int).length + 1 ∧
    (acDryBoundaries [60, 64, 67]).getD 0 0 = 0 ∧
    (∀ i, 1 ≤ i → i < ([60, 64, 67] : List Int).length →
      (acDryBoundaries [60, 64, 67]).getD i 0
        = (([60, 64, 67] : List Int).getD (i - 1) 0
            + ([60, 64, 67] : List Int).getD i 0 + 1).fdiv 2) ∧
    (acDryBoundaries [60, 64, 67]).getD ([60, 64, 67] : List Int).length 0 = 127 ∧
    (buildAcDryRegions [60, 64, 67] [1, 1, 1]).length
        = ([60, 64, 67] : List Int).length ∧
    (∀ i, i < ([60, 64, 67] : List Int).length →
      ((buildAcDryRegions [60, 64, 67] [1, 1, 1]).getD i default).sample_lokey
          = (acDryBoundaries [60, 64, 67]).getD i 0 ∧
      ((buildAcDryRegions [60, 64, 67] [1, 1, 1]).getD i default).sample_hikey
          = (acDryBoundaries [60, 64, 67]).getD (i + 1) 0 ∧
      ((buildAcDryRegions [60, 64, 67] [1, 1, 1]).getD i default).sound_rootnote
          = ([60, 64, 67] : List Int).getD i 0) ∧
    acDryBoundaries [60, 64, 67] = [0, 62, 66, 127] :=
  buildAcDryRegions_boundary_spec [60, 64, 67] [1, 1, 1]
    (by decide)
    (List.Chain.cons (by decide) (List.Chain.cons (by decide) List.Chain.nil))
    (by decide) (by decide) (by decide)

/-- C3: with distinct ascending notes in `[0, 127]` and positive frame
counts, the regions' key ranges tile `[0, 127]`: the first `lowKey` is 0,
the last `highKey` is 127, each region's `highKey` equals the next
region's `lowKey`, every region satisfies `lowKey ≤ highKey`, and every
key in `[0, 127]` is covered by some region. -/
theorem buildAcDryRegions_partition (notes fls : List Int)
    (hne : notes ≠ [])
    (hsort : List.Chain' (· < ·) notes)
    (hrange : ∀ x ∈ notes, 0 ≤ x ∧ x ≤ 127)
    (hlen : fls.length = notes.length)
    (hpos : ∀ f ∈ fls, 0 < f) :
    buildAcDryRegions notes fls ≠ [] ∧
    ((buildAcDryRegions notes fls).getD 0 default).sample_lokey = 0 ∧
    ((buildAcDryRegions notes fls).getD
        ((buildAcDryRegions notes fls).length - 1) default).sample_hikey = 127 ∧
    (∀ i, i + 1 < (buildAcDryRegions notes fls).length →
      ((buildAcDryRegions notes fls).getD i default).sample_hikey
        = ((buildAcDryRegions notes fls).getD (i + 1) default).sample_lokey) ∧
    (∀ i, i < (buildAcDryRegions notes fls).length →
      ((buildAcDryRegions notes fls).getD i default).sample_lokey
        ≤ ((buildAcDryRegions notes fls).getD i default).sample_hikey) ∧
    (∀ k : Int, 0 ≤ k → k ≤ 127 →
      ∃ i, i < (buildAcDryRegions notes fls).length ∧
        ((buildAcDryRegions notes fls).getD i default).sample_lokey ≤ k ∧
        k ≤ ((buildAcDryRegions notes fls).getD i default).sample_hikey) := by
  have hn1 : 1 ≤ notes.length := ne_nil_length_pos notes hne
  have hblen := acDryBoundaries_length notes hne
  have hchain := acDryBoundaries_chain notes hne hsort hrange
  have hbuild : buildAcDryRegions notes fls
      = regionsLoop notes.length notes fls (acDryBoundaries notes) 0 0 := by
    unfold buildAcDryRegions
    rw [if_neg (by omega)]
  obtain ⟨hrl, hrk⟩ := regionsLoop_pos notes fls (acDryBoundaries notes)
    hlen hpos notes.length 0 0 (by omega)
  simp only [Nat.zero_add, Nat.sub_zero] at hrl hrk
  have hlen' : (buildAcDryRegions notes fls).length = notes.length := by
    rw [hbuild, hrl]
  refine ⟨?_, ?_, ?_, ?_, ?_, ?_⟩
  · intro hnil
    rw [hnil] at hlen'
    simp at hlen'
    omega
  · rw [hbuild]
    exact ((hrk 0 (by omega)).1).trans (acDryBoundaries_getD_zero notes)
  · rw [hlen', hbuild]
    have h := (hrk (notes.length - 1) (by omega)).2.1
    rw [h, show notes.length - 1 + 1 = notes.length by omega]
    rw [getD_default_eq (acDryBoundaries notes) notes.length (by omega) 127 0]
    exact acDryBoundaries_getD_last notes hne
  · intro i hi
    rw [hlen'] at hi
    rw [hbuild]
    rw [(hrk i (by omega)).2.1, (hrk (i + 1) (by omega)).1]
    exact getD_default_eq (acDryBoundaries notes) (i + 1) (by omega) 127 0
  · intro i hi
    rw [hlen'] at hi
    rw [hbuild]
    rw [(hrk i hi).1, (hrk i hi).2.1]
    rw [getD_default_eq (acDryBoundaries notes) (i + 1) (by omega) 127 0]
    exact chain'_le_getD _ hchain i (i + 1) (by omega) (by omega)
  · intro k hk0 hk127
    obtain ⟨i, hi1, hi2, hi3⟩ := chain_cover (acDryBoundaries notes) hchain
      (by omega) k
      (by rw [acDryBoundaries_getD_zero]; exact hk0)
      (by rw [hblen, show notes.length + 1 - 1 = notes.length by omega,
        acDryBoundaries_getD_last notes hne]; exact hk127)
    refine ⟨i, by omega, ?_, ?_⟩
    · rw [hbuild, (hrk i (by omega)).1]
      exact hi2
    · rw [hbuild, (hrk i (by omega)).2.1]
      rw [getD_default_eq (acDryBoundaries notes) (i + 1) (by omega) 127 0]
      exact hi3

/-- Witness for C3 at notes `[60, 64, 67]` with frame lengths
`[1, 2, 3]`. -/
theorem buildAcDryRegions_partition_witness :
    buildAcDryRegions [60, 64, 67] [1, 2, 3] ≠ [] ∧
    ((buildAcDryRegions [60, 64, 67] [1, 2, 3]).getD 0 default).sample_lokey = 0 ∧
    ((buildAcDryRegions [60, 64, 67] [1, 2, 3]).getD
        ((buildAcDryRegions [60, 64, 67] [1, 2, 3]).length - 1) default).sample_hikey
        = 127 ∧
    (∀ i, i + 1 < (buildAcDryRegions [60, 64, 67] [1, 2, 3]).length →
      ((buildAcDryRegions [60, 64, 67] [1, 2, 3]).getD i default).sample_hikey
        = ((buildAcDryRegions [60, 64, 67] [1, 2, 3]).getD (i + 1) default).sample_lokey) ∧
    (∀ i, i < (buildAcDryRegions [60, 64, 67] [1, 2, 3]).length →
      ((buildAcDryRegions [60, 64, 67] [1, 2, 3]).getD i default).sample_lokey
        ≤ ((buildAcDryRegions [60, 64, 67] [1, 2, 3]).getD i default).sample_hikey) ∧
    (∀ k : Int, 0 ≤ k → k ≤ 127 →
      ∃ i, i < (buildAcDryRegions [60, 64, 67] [1, 2, 3]).length ∧
        ((buildAcDryRegions [60, 64, 67] [1, 2, 3]).getD i default).sample_lokey ≤ k ∧
        k ≤ ((buildAcDryRegions [60, 64, 67] [1, 2, 3]).getD i default).sample_hikey) :=
  buildAcDryRegions_partition [60, 64, 67] [1, 2, 3]
    (by decide)
    (List.Chain.cons (by decide) (List.Chain.cons (by decide) List.Chain.nil))
    (by decide) (by decide) (by decide)

/-! ### The channel remixer -/

/-- A Web Audio `AudioBuffer` as the remixer sees it: sample rate,
declared frame count (`length`) and per-channel sample data
(`getChannelData i` is `channelData.getD i []`). -/
structure AudioBuffer where
  sampleRate : ℚ
  numberOfChannels : Nat
  length : Nat
  channelData : List (List ℚ)
deriving DecidableEq, Repr

def AudioBuffer.getChannelData (b : AudioBuffer) (i : Nat) : List ℚ :=
  b.channelData.getD i []

/-- The invariant every real `AudioBuffer` satisfies: one channel array
of exactly `length` samples per declared channel. -/
def wellFormedBuffer (b : AudioBuffer) : Prop :=
  b.channelData.length = b.numberOfChannels ∧
  ∀ c ∈ b.channelData, c.length = b.length

/-- `ctx.createBuffer(channels, length, sampleRate)`: zero-filled
channels. -/
def createBuffer (channels length : Nat) (sampleRate : ℚ) : AudioBuffer :=
  ⟨sampleRate, channels, length, List.replicate channels (List.replicate length 0)⟩

/-- The accumulation loop `for i in 0..src.length: dst[i] += src[i]` of
the mono downmix.  Elementwise sum over the common prefix; surplus `dst`
entries stay, surplus `src` entries are dropped (a `Float32Array` write
past the end is a no-op). -/
def addLoop : List ℚ → List ℚ → List ℚ
  | dst, [] => dst
  | [], _ :: _ => []
  | d :: dst, s :: src => (d + s) :: addLoop dst src

/-- `TypedArray.set(src)` at offset 0: copy `src` over the front of
`dst`. -/
def setChannel (dst src : List ℚ) : List ℚ := src ++ dst.drop src.length

/-- `toTargetChannels` from `exportWav.ts`.  The source's opening
`if (channels === buffer.numberOfChannels || ...)` has an empty body and
no effect; target 1 averages all source channels
(`inv = 1 / buffer.numberOfChannels`); target 2 duplicates a mono source
and otherwise copies source channels 0 and 1. -/
def toTargetChannels (buffer : AudioBuffer) (channels : Nat) : AudioBuffer :=
  let out := createBuffer channels buffer.length buffer.sampleRate
  if channels = 1 then
    let dst0 := List.replicate buffer.length (0 : ℚ)
    let summed := buffer.channelData.foldl addLoop dst0
    { out with channelData :=
        [summed.map (fun v => v * (1 / (buffer.numberOfChannels : ℚ)))] }
  else
    if buffer.numberOfChannels = 1 then
      { out with channelData :=
          [setChannel (List.replicate buffer.length 0) (buffer.getChannelData 0),
           setChannel (List.replicate buffer.length 0) (buffer.getChannelData 0)] }
    else
      { out with channelData :=
          [setChannel (List.replicate buffer.length 0) (buffer.getChannelData 0),
           setChannel (List.replicate buffer.length 0) (buffer.getChannelData 1)] }

theorem addLoop_length : ∀ dst src : List ℚ, (addLoop dst src).length = dst.length := by
  intro dst
  induction dst with
  | nil => intro src; cases src <;> rfl
  | cons d ds ih =>
    intro src
    cases src with
    | nil => rfl
    | cons s ss => simp [addLoop, ih]

theorem addLoop_getD_eq (dst src : List ℚ) (h : src.length = dst.length) :
    ∀ i, i < dst.length →
      (addLoop dst src).getD i 0 = dst.getD i 0 + src.getD i 0 := by
  induction dst generalizing src with
  | nil => intro i hi; simp at hi
  | cons d ds ih =>
    intro i hi
    cases src with
    | nil => simp at h
    | cons s ss =>
      cases i with
      | zero => simp [addLoop]
      | succ i =>
        simp only [addLoop, List.getD_cons_succ]
        exact ih ss (by simpa using h) i (by simpa using hi)

theorem foldl_addLoop (n : Nat) :
    ∀ (cs : List (List ℚ)) (acc : List ℚ), acc.length = n →
      (∀ c ∈ cs, c.length = n) →
      (cs.foldl addLoop acc).length = n ∧
      (∀ i, i < n → (cs.foldl addLoop acc).getD i 0
          = acc.getD i 0 + (cs.map (fun c => c.getD i 0)).sum) := by
  intro cs
  induction cs with
  | nil =>
    intro acc hacc _
    exact ⟨hacc, fun i _ => by simp⟩
  | cons c cs ih =>
    intro acc hacc hcs
    have hc : c.length = n := hcs c (List.mem_cons_self _ _)
    have hacc' : (addLoop acc c).length = n := by rw [addLoop_length, hacc]
    obtain ⟨ihl, ihk⟩ := ih (addLoop acc c) hacc'
      (fun x hx => hcs x (List.mem_cons_of_mem _ hx))
    refine ⟨by simpa using ihl, ?_⟩
    intro i hi
    simp only [List.foldl_cons, List.map_cons, List.sum_cons]
    rw [ihk i hi, addLoop_getD_eq acc c (by omega) i (by omega)]
    ring

theorem setChannel_exact (src : List ℚ) (n : Nat) (h : src.length = n) :
    setChannel (List.replicate n 0) src = src := by
  unfold setChannel
  rw [List.drop_eq_nil_of_le (by simp [h])]
  simp

/-- C7: the remixer preserves the frame count and is total; target 1
produces the elementwise mean of all source channels, target 2 duplicates
a mono source, and with at least two source channels copies channels 0
and 1, dropping the rest. -/
theorem toTargetChannels_spec (b : AudioBuffer) (tc : Nat)
    (hwf : wellFormedBuffer b) (hch : 1 ≤ b.numberOfChannels)
    (htc : tc = 1 ∨ tc = 2) :
    (toTargetChannels b tc).length = b.length ∧
    (toTargetChannels b tc).sampleRate = b.sampleRate ∧
    (toTargetChannels b tc).numberOfChannels = tc ∧
    wellFormedBuffer (toTargetChannels b tc) ∧
    (tc = 1 →
      (toTargetChannels b tc).channelData
        = [(List.range b.length).map (fun i =>
            (b.channelData.map (fun c => c.getD i 0)).sum
              / (b.numberOfChannels : ℚ))]) ∧
    (tc = 2 → b.numberOfChannels = 1 →
      (toTargetChannels b tc).channelData
        = [b.getChannelData 0, b.getChannelData 0]) ∧
    (tc = 2 → 2 ≤ b.numberOfChannels →
      (toTargetChannels b tc).channelData
        = [b.getChannelData 0, b.getChannelData 1]) := by
  obtain ⟨hwf1, hwf2⟩ := hwf
  have hget : ∀ i, i < b.numberOfChannels → (b.getChannelData i).length = b.length := by
    intro i hi
    apply hwf2
    unfold AudioBuffer.getChannelData
    rw [List.getD_eq_getElem _ _ (by omega)]
    exact List.getElem_mem _
  by_cases h1 : tc = 1
  · subst h1
    obtain ⟨hsl, hsk⟩ := foldl_addLoop b.length b.channelData
      (List.replicate b.length 0) (by simp) (fun c hc => hwf2 c hc)
    have hmean : (b.channelData.foldl addLoop (List.replicate b.length 0)).map
        (fun v => v * (1 / (b.numberOfChannels : ℚ)))
        = (List.range b.length).map (fun i =>
            (b.channelData.map (fun c => c.getD i 0)).sum
              / (b.numberOfChannels : ℚ)) := by
      apply List.ext_getElem
      · simp [hsl]
      · intro i hi1 hi2
        simp only [List.getElem_map, List.getElem_range]
        have hi : i < b.length := by simpa [hsl] using hi1
        have hv := hsk i hi
        rw [List.getD_eq_getElem _ _ (by omega)] at hv
        rw [hv]
        simp
        ring
    have hcd : (toTargetChannels b 1).channelData
        = [(b.channelData.foldl addLoop (List.replicate b.length 0)).map
            (fun v => v * (1 / (b.numberOfChannels : ℚ)))] := rfl
    have hL : (toTargetChannels b 1).length = b.length := rfl
    have hS : (toTargetChannels b 1).sampleRate = b.sampleRate := rfl
    have hN : (toTargetChannels b 1).numberOfChannels = 1 := rfl
    refine ⟨hL, hS, hN, ?_, fun _ => hcd.trans (congrArg (fun l => [l]) hmean),
      by omega, by omega⟩
    constructor
    · rw [hcd, hN]
      rfl
    · intro c hc
      rw [hcd] at hc
      simp only [List.mem_singleton] at hc
      rw [hc, hL]
      simp [hsl]
  · have h2 : tc = 2 := by tauto
    subst h2
    have hout : toTargetChannels b 2
        = (if b.numberOfChannels = 1 then
            ({ sampleRate := b.sampleRate, numberOfChannels := 2, length := b.length,
               channelData :=
                 [setChannel (List.replicate b.length 0) (b.getChannelData 0),
                  setChannel (List.replicate b.length 0) (b.getChannelData 0)] } : AudioBuffer)
          else
            { sampleRate := b.sampleRate, numberOfChannels := 2, length := b.length,
              channelData :=
                [setChannel (List.replicate b.length 0) (b.getChannelData 0),
                 setChannel (List.replicate b.length 0) (b.getChannelData 1)] }) := rfl
    by_cases hm : b.numberOfChannels = 1
    · have hs0 : (b.getChannelData 0).length = b.length := hget 0 (by omega)
      have hout' : toTargetChannels b 2
          = { sampleRate := b.sampleRate, numberOfChannels := 2, length := b.length,
              channelData := [b.getChannelData 0, b.getChannelData 0] } := by
        rw [hout, if_pos hm, setChannel_exact _ _ hs0]
      rw [hout']
      refine ⟨rfl, rfl, rfl, ?_, by omega, fun _ _ => rfl, by omega⟩
      constructor
      · rfl
      · intro c hc
        simp only [List.mem_cons, List.mem_singleton] at hc
        rcases hc with h | h | h
        · rw [h]; exact hs0
        · rw [h]; exact hs0
        · simp at h
    · have hs0 : (b.getChannelData 0).length = b.length := hget 0 (by omega)
      have hs1 : (b.getChannelData 1).length = b.length := hget 1 (by omega)
      have hout' : toTargetChannels b 2
          = { sampleRate := b.sampleRate, numberOfChannels := 2, length := b.length,
              channelData := [b.getChannelData 0, b.getChannelData 1] } := by
        rw [hout, if_neg hm, setChannel_exact _ _ hs0, setChannel_exact _ _ hs1]
      rw [hout']
      refine ⟨rfl, rfl, rfl, ?_, by omega, by omega, fun _ _ => rfl⟩
      constructor
      · rfl
      · intro c hc
        simp only [List.mem_cons, List.mem_singleton] at hc
        rcases hc with h | h | h
        · rw [h]; exact hs0
        · rw [h]; exact hs1
        · simp at h

/-- Witness for C7: a mono 2-frame buffer remixed to stereo duplicates
its channel. -/
theorem toTargetChannels_spec_witness :
    (toTargetChannels ⟨44100, 1, 2, [[1, 2]]⟩ 2).length = 2 ∧
    (toTargetChannels ⟨44100, 1, 2, [[1, 2]]⟩ 2).channelData = [[1, 2], [1, 2]] := by
  have h := toTargetChannels_spec ⟨44100, 1, 2, [[1, 2]]⟩ 2
    (by
      constructor
      · rfl
      · intro c hc
        simp only [List.mem_singleton] at hc
        rw [hc]
        rfl)
    (by norm_num) (Or.inr rfl)
  refine ⟨h.1, ?_⟩
  have h6 := h.2.2.2.2.2.1 rfl rfl
  rw [h6]
  rfl

/-! ### The chunk builders -/

/-- Decimal ASCII bytes of an integral JS number (`JSON.stringify`). -/
def intBytes (n : Int) : List Nat := asciiBytes (toString n)

/-- `JSON.stringify` bytes of one region object of the TNGE metadata
(keys in insertion order, no whitespace; `123`/`125` are the `{`/`}`
bytes). -/
def regionJsonBytes (r : AcDryRegion) : List Nat :=
  [123] ++ asciiBytes "\"sample.start\":" ++ intBytes r.sample_start
    ++ asciiBytes ",\"sample.end\":" ++ intBytes r.sample_end
    ++ asciiBytes ",\"sample.lokey\":" ++ intBytes r.sample_lokey
    ++ asciiBytes ",\"sample.hikey\":" ++ intBytes r.sample_hikey
    ++ asciiBytes ",\"sound.rootnote\":" ++ intBytes r.sound_rootnote
    ++ asciiBytes ",\"sound.loopstart\":-1,\"sound.loopend\":-1" ++ [125]

/-- `enc.encode(JSON.stringify(tnge) + '\u0000')` of `buildListChunkTnge`
(the metadata object with the constant rootnote 60 and the `regions`
array, NUL-terminated; `44` is the `,` byte between regions). -/
def tngeJsonBytes (regions : List AcDryRegion) : List Nat :=
  [123] ++ asciiBytes "\"sound.playmode\":\"key\",\"sound.rootnote\":60,\"sound.pitch\":0,\"sound.pan\":0,\"sound.amplitude\":100,\"envelope.attack\":0,\"envelope.release\":0,\"time.mode\":\"off\",\"sample.mode\":\"multi\",\"regions\":["
    ++ List.intercalate [44] (regions.map regionJsonBytes)
    ++ asciiBytes "]" ++ [125] ++ [0]

/-- `buildListChunkTnge` from `exportWav.ts`: `LIST` + uint32 size +
`INFO` + `TNGE` + uint32 json length + json + pad byte when the INFO
payload length is odd.  Note that the declared size (`listChunkSize =
infoLen`) **includes** the pad byte. -/
def buildListChunkTnge (regions : List AcDryRegion) : List Nat :=
  let tngeJson := tngeJsonBytes regions
  let infoLenNoPad := 4 + 4 + 4 + tngeJson.length
  let infoPad := if infoLenNoPad % 2 = 0 then 0 else 1
  let infoLen := infoLenNoPad + infoPad
  asciiBytes "LIST" ++ le32 infoLen ++ asciiBytes "INFO" ++ asciiBytes "TNGE"
    ++ le32 tngeJson.length ++ tngeJson ++ (if infoPad = 1 then [0] else [])

/-- `buildSmplChunk`: 36-byte payload, no loops, unity note 60; the
sample period is `Math.floor((1 / sampleRate) * 1e9)` for a positive
rate and 0 otherwise. -/
def buildSmplChunk (sampleRate : ℚ) : List Nat :=
  let samplePeriod : Nat :=
    if 0 < sampleRate then (⌊(1 / sampleRate) * 1000000000⌋ : Int).toNat else 0
  asciiBytes "smpl" ++ le32 36 ++ le32 0 ++ le32 0 ++ le32 samplePeriod
    ++ le32 60 ++ le32 0 ++ le32 0 ++ le32 0 ++ le32 0 ++ le32 0

/-- ECMAScript `ToUint32` of a finite value (used by
`DataView.setUint32`). -/
def jsToUint32 (q : ℚ) : Nat := ((jsTrunc q) % (2 ^ 32 : Int)).toNat

/-- ECMAScript `ToUint16` of a finite value (used by
`DataView.setUint16`). -/
def jsToUint16 (q : ℚ) : Nat := ((jsTrunc q) % (2 ^ 16 : Int)).toNat

/-- `buildFmtChunkPcm`: 16-byte PCM fmt payload. -/
def buildFmtChunkPcm (channels : Nat) (sampleRate : ℚ) (bitsPerSample : Nat) : List Nat :=
  let bytesPerSample : ℚ := (bitsPerSample : ℚ) / 8
  let blockAlign : ℚ := (channels : ℚ) * bytesPerSample
  let byteRate : ℚ := sampleRate * blockAlign
  asciiBytes "fmt " ++ le32 16 ++ le16 1 ++ le16 channels
    ++ le32 (jsToUint32 sampleRate) ++ le32 (jsToUint32 byteRate)
    ++ le16 (jsToUint16 blockAlign) ++ le16 bitsPerSample

/-- Little-endian bytes of one `Int16Array` element (two's complement). -/
def int16le (v : Int) : List Nat :=
  [(v % 65536).toNat % 256, (v % 65536).toNat / 256]

/-- `buildDataChunk`: `data` + uint32 size + PCM bytes (+ pad byte if the
byte count were odd — it never is for 16-bit samples, but the builder
computes it, and the declared size is `dataBytes + pad`). -/
def buildDataChunk (pcm : List Int) : List Nat :=
  let dataBytes := 2 * pcm.length
  let pad := if dataBytes % 2 = 0 then 0 else 1
  asciiBytes "data" ++ le32 (dataBytes + pad) ++ (pcm.map int16le).flatten
    ++ (if pad = 1 then [0] else [])

set_option maxRecDepth 10000 in
/-- Counterexample to C1 as stated: for the empty region list the LIST
chunk's payload (`INFO` + `TNGE` + uint32 + JSON + NUL) is 203 bytes —
odd — and the declared uint32 size at offset 4 is the **padded** length
204, not the unpadded payload length 203. -/
theorem buildListChunkTnge_size_counterexample :
    (4 + 4 + 4 + (tngeJsonBytes []).length) % 2 = 1 ∧
    readLE32 (buildListChunkTnge []) 4 ≠ 4 + 4 + 4 + (tngeJsonBytes []).length ∧
    readLE32 (buildListChunkTnge []) 4 = 4 + 4 + 4 + (tngeJsonBytes []).length + 1 := by
  refine ⟨by decide, by decide, by decide⟩

theorem flatten_int16le_length (pcm : List Int) :
    ((pcm.map int16le).flatten).length = 2 * pcm.length := by
  induction pcm with
  | nil => rfl
  | cons v t ih =>
    simp only [List.map_cons, List.flatten_cons, List.length_append, ih,
      List.length_cons]
    simp [int16le]
    omega

theorem readLE32_after4 (a rest : List Nat) (h : a.length = 4) (n : Nat) :
    readLE32 (a ++ (le32 n ++ rest)) 4 = n % 2 ^ 32 := by
  have h2 := readLE32_append a (le32 n ++ rest) 0
  rw [h] at h2
  rw [show (4 : Nat) + 0 = 4 from rfl] at h2
  rw [h2, readLE32_le32_self]

/-- C1 amended: every builder appends exactly one zero pad byte to an
odd payload, but the declared little-endian uint32 size at offset 4 is
the **padded** payload length (pad included, unlike the RIFF convention);
for the data chunk the PCM payload (`2 × samples` bytes) is always even,
so pad = 0 and the declared size equals the payload length there. -/
theorem chunk_builders_pad (regions : List AcDryRegion) (pcm : List Int)
    (hsz : 4 + 4 + 4 + (tngeJsonBytes regions).length + 1 < 2 ^ 32)
    (hpcm : 2 * pcm.length < 2 ^ 32) :
    ((buildListChunkTnge regions).take 4 = asciiBytes "LIST" ∧
     (buildListChunkTnge regions).length
        = 8 + (12 + (tngeJsonBytes regions).length)
            + (12 + (tngeJsonBytes regions).length) % 2 ∧
     readLE32 (buildListChunkTnge regions) 4
        = (12 + (tngeJsonBytes regions).length)
            + (12 + (tngeJsonBytes regions).length) % 2 ∧
     ((12 + (tngeJsonBytes regions).length) % 2 = 1 →
        (buildListChunkTnge regions).getLast? = some 0)) ∧
    ((buildDataChunk pcm).take 4 = asciiBytes "data" ∧
     (buildDataChunk pcm).length = 8 + 2 * pcm.length ∧
     readLE32 (buildDataChunk pcm) 4 = 2 * pcm.length) := by
  have hshape : buildListChunkTnge regions
      = asciiBytes "LIST" ++ (le32 ((4 + 4 + 4 + (tngeJsonBytes regions).length)
          + (if (4 + 4 + 4 + (tngeJsonBytes regions).length) % 2 = 0 then 0 else 1))
        ++ (asciiBytes "INFO" ++ (asciiBytes "TNGE"
          ++ (le32 (tngeJsonBytes regions).length ++ (tngeJsonBytes regions
            ++ (if (if (4 + 4 + 4 + (tngeJsonBytes regions).length) % 2 = 0
                  then 0 else 1) = 1 then [0] else [])))))) := by
    simp [buildListChunkTnge, List.append_assoc]
  have hpadlen : (if (if (4 + 4 + 4 + (tngeJsonBytes regions).length) % 2 = 0
      then 0 else 1) = 1 then [(0 : Nat)] else []).length
      = (12 + (tngeJsonBytes regions).length) % 2 := by
    by_cases hpar : (4 + 4 + 4 + (tngeJsonBytes regions).length) % 2 = 0
    · rw [if_pos hpar, if_neg (by omega)]
      simp
      omega
    · rw [if_neg hpar, if_pos rfl]
      simp
      omega
  have hpadval : (4 + 4 + 4 + (tngeJsonBytes regions).length)
      + (if (4 + 4 + 4 + (tngeJsonBytes regions).length) % 2 = 0 then 0 else 1)
      = (12 + (tngeJsonBytes regions).length)
          + (12 + (tngeJsonBytes regions).length) % 2 := by
    by_cases hpar : (4 + 4 + 4 + (tngeJsonBytes regions).length) % 2 = 0
    · rw [if_pos hpar]
      omega
    · rw [if_neg hpar]
      omega
  have hshape_d : buildDataChunk pcm
      = asciiBytes "data" ++ (le32 (2 * pcm.length)
        ++ (pcm.map int16le).flatten) := by
    simp [buildDataChunk, Nat.mul_mod_right, List.append_assoc]
  constructor
  · refine ⟨?_, ?_, ?_, ?_⟩
    · rw [hshape]
      exact List.take_left' rfl
    · rw [hshape]
      simp only [List.length_append, le32_length, hpadlen]
      have hL : (asciiBytes "LIST").length = 4 := rfl
      have hI : (asciiBytes "INFO").length = 4 := rfl
      have hT : (asciiBytes "TNGE").length = 4 := rfl
      rw [hL, hI, hT]
      omega
    · rw [hshape, readLE32_after4 (asciiBytes "LIST") _ rfl, hpadval,
        Nat.mod_eq_of_lt (by omega)]
    · intro hodd
      have hpar : ¬ (4 + 4 + 4 + (tngeJsonBytes regions).length) % 2 = 0 := by
        omega
      have hifs : (if (if (4 + 4 + 4 + (tngeJsonBytes regions).length) % 2 = 0
          then 0 else 1) = 1 then [(0 : Nat)] else []) = [0] := by
        rw [if_neg hpar]
        rfl
      show ((asciiBytes "LIST"
            ++ le32 ((4 + 4 + 4 + (tngeJsonBytes regions).length)
              + (if (4 + 4 + 4 + (tngeJsonBytes regions).length) % 2 = 0 then 0 else 1))
            ++ asciiBytes "INFO" ++ asciiBytes "TNGE"
            ++ le32 (tngeJsonBytes regions).length ++ tngeJsonBytes regions)
          ++ (if (if (4 + 4 + 4 + (tngeJsonBytes regions).length) % 2 = 0
                then 0 else 1) = 1 then [0] else [])).getLast? = some 0
      rw [hifs]
      exact List.getLast?_concat _
  · refine ⟨?_, ?_, ?_⟩
    · rw [hshape_d]
      exact List.take_left' rfl
    · rw [hshape_d]
      simp only [List.length_append, le32_length, flatten_int16le_length,
        List.length_nil]
      have hD : (asciiBytes "data").length = 4 := rfl
      rw [hD]
      omega
    · rw [hshape_d, readLE32_after4 (asciiBytes "data") _ rfl,
        Nat.mod_eq_of_lt (by omega)]

set_option maxRecDepth 10000 in
/-- Witness for the amended C1 at the empty region list (odd payload,
declared size 204 = 203 + 1) and a one-sample PCM buffer. -/
theorem chunk_builders_pad_witness :
    readLE32 (buildListChunkTnge []) 4
        = (12 + (tngeJsonBytes []).length) + (12 + (tngeJsonBytes []).length) % 2 ∧
    (buildListChunkTnge []).getLast? = some 0 ∧
    readLE32 (buildDataChunk [1]) 4 = 2 * ([1] : List Int).length := by
  have h := chunk_builders_pad [] [1] (by decide) (by decide)
  exact ⟨h.1.2.2.1, h.1.2.2.2 (by decide), h.2.2.2⟩

/-! ### The kit encoder -/

structure ExportOptions where
  sampleRate : ℚ
  channels : Nat
deriving DecidableEq, Repr

/-- The sorted item list:
`[...items].sort((a, b) => a.note - b.note)` — ascending by note and
stable (ECMAScript guarantees sort stability), modelled by a stable
insertion sort. -/
def sortItems (items : List (Int × AudioBuffer)) : List (Int × AudioBuffer) :=
  List.insertionSort (fun a b => a.1 ≤ b.1) items

/-- The per-item loop of `exportAcDryKitWavPcm16` after decoding and
resampling (`decodeAudioData` and `OfflineAudioContext` rendering are
external browser capabilities, so the encoder is modelled on the already
decoded-and-resampled buffers): remix each sorted item and skip it
entirely when its frame count is ≤ 0, collecting `(note, remixed)` pairs
in order. -/
def renderItems (channels : Nat) : List (Int × AudioBuffer) → List (Int × AudioBuffer)
  | [] => []
  | (note, buf) :: rest =>
    if (toTargetChannels buf channels).length ≤ 0 then renderItems channels rest
    else (note, toTargetChannels buf channels) :: renderItems channels rest

/-- `interleavePcm16` from `exportWav.ts`: quantized interleaved PCM16
samples of one rendered buffer (mono reads channel 0; stereo interleaves
channels 0 and 1 frame by frame). -/
def interleavePcm16 (buffer : AudioBuffer) (channels : Nat) : List Int :=
  if channels = 1 then
    (List.range buffer.length).map (fun i =>
      clampInt16 (JsNum.fin ((buffer.getChannelData 0).getD i 0)))
  else
    ((List.range buffer.length).map (fun i =>
      [clampInt16 (JsNum.fin ((buffer.getChannelData 0).getD i 0)),
       clampInt16 (JsNum.fin ((buffer.getChannelData 1).getD i 0))])).flatten

/-- The regions the kit encoder passes to the LIST chunk: built from the
notes and frame lengths of the **kept** items only. -/
def kitRegions (items : List (Int × AudioBuffer)) (options : ExportOptions) :
    List AcDryRegion :=
  buildAcDryRegions
    ((renderItems options.channels (sortItems items)).map (fun it => it.1))
    ((renderItems options.channels (sortItems items)).map
      (fun it => (it.2.length : Int)))

/-- `totalFrames` accumulated by the encoder loop. -/
def kitTotalFrames (items : List (Int × AudioBuffer)) (options : ExportOptions) : Nat :=
  ((renderItems options.channels (sortItems items)).map (fun it => it.2.length)).sum

/-- `exportAcDryKitWavPcm16` from the point after decode/resample: sort,
remix and filter the items, concatenate their interleaved PCM16, build
the fmt / LIST / smpl / data chunks and wrap them in the RIFF/WAVE
envelope; returns the bytes and `totalFrames / sampleRate`. -/
def exportAcDryKitWavPcm16 (items : List (Int × AudioBuffer))
    (options : ExportOptions) : List Nat × ℚ :=
  let rendered := renderItems options.channels (sortItems items)
  let pcm := (rendered.map (fun it => interleavePcm16 it.2 options.channels)).flatten
  let fmtChunk := buildFmtChunkPcm options.channels options.sampleRate 16
  let listChunk := buildListChunkTnge (kitRegions items options)
  let smplChunk := buildSmplChunk options.sampleRate
  let dataChunk := buildDataChunk pcm
  let riffSize := 4 + fmtChunk.length + listChunk.length + smplChunk.length
      + dataChunk.length
  (asciiBytes "RIFF" ++ le32 riffSize ++ asciiBytes "WAVE"
      ++ fmtChunk ++ listChunk ++ smplChunk ++ dataChunk,
    (kitTotalFrames items options : ℚ) / options.sampleRate)

/-- Counterexample to C2 as stated: with items (note 60, 0 frames) and
(note 64, 10 frames) the encoder keeps only note 64 and computes the
boundaries from `[64]` alone, so the produced region spans `[0, 127]`;
had the discarded note 60 still participated in the boundary math (i.e.
`buildAcDryRegions [60, 64] [0, 10]`), the region would start at key 62. -/
theorem kitRegions_counterexample :
    kitRegions [(60, ⟨44100, 1, 0, [[]]⟩), (64, ⟨44100, 1, 10, [List.replicate 10 0]⟩)]
        ⟨44100, 1⟩
      ≠ buildAcDryRegions [60, 64] [0, 10] ∧
    kitRegions [(60, ⟨44100, 1, 0, [[]]⟩), (64, ⟨44100, 1, 10, [List.replicate 10 0]⟩)]
        ⟨44100, 1⟩
      = [⟨0, 10, 0, 127, 64⟩] ∧
    buildAcDryRegions [60, 64] [0, 10] = [⟨0, 10, 62, 127, 64⟩] := by
  refine ⟨by decide, by decide, by decide⟩

theorem renderItems_eq_filter (c : Nat) (l : List (Int × AudioBuffer)) :
    renderItems c l
      = (l.filter (fun it => decide (0 < (toTargetChannels it.2 c).length))).map
          (fun it => (it.1, toTargetChannels it.2 c)) := by
  induction l with
  | nil => rfl
  | cons it rest ih =>
    obtain ⟨note, buf⟩ := it
    by_cases h : (toTargetChannels buf c).length ≤ 0
    · rw [show renderItems c ((note, buf) :: rest) = renderItems c rest from by
        simp only [renderItems]
        rw [if_pos h]]
      rw [ih, List.filter_cons, if_neg (by simp only [decide_eq_true_eq]; omega)]
    · rw [show renderItems c ((note, buf) :: rest)
          = (note, toTargetChannels buf c) :: renderItems c rest from by
        simp only [renderItems]
        rw [if_neg h]]
      rw [ih, List.filter_cons, if_pos (by simp only [decide_eq_true_eq]; omega)]
      rfl

/-- C2 amended: an item whose remixed frame count is ≤ 0 is discarded
entirely — it produces no region, contributes no frames, and its note
does **not** participate in the key-range boundary computation: the
encoder's region list equals `buildAcDryRegions` applied to the sorted
item list with the zero-frame items filtered out first. -/
theorem kitRegions_filtered (items : List (Int × AudioBuffer))
    (options : ExportOptions) :
    kitRegions items options
      = buildAcDryRegions
          (((sortItems items).filter
              (fun it => decide (0 < (toTargetChannels it.2 options.channels).length))).map
            (fun it => it.1))
          (((sortItems items).filter
              (fun it => decide (0 < (toTargetChannels it.2 options.channels).length))).map
            (fun it => ((toTargetChannels it.2 options.channels).length : Int))) := by
  unfold kitRegions
  rw [renderItems_eq_filter, List.map_map, List.map_map]
  rfl

set_option maxRecDepth 100000 in
/-- C9: the kit encoder on an empty item list succeeds and returns a
well-formed RIFF/WAVE buffer holding exactly the fmt, LIST (whose TNGE
JSON carries an empty `regions` array), smpl and data chunks, with an
empty data payload (declared size 0) and reported duration 0 for any
positive sample rate. -/
theorem exportKit_empty (options : ExportOptions) (hsr : 0 < options.sampleRate) :
    (exportAcDryKitWavPcm16 [] options).2 = 0 ∧
    ((exportAcDryKitWavPcm16 [] options).1).take 4 = asciiBytes "RIFF" ∧
    readLE32 (exportAcDryKitWavPcm16 [] options).1 4
        = (exportAcDryKitWavPcm16 [] options).1.length - 8 ∧
    (((exportAcDryKitWavPcm16 [] options).1).drop 8).take 4 = asciiBytes "WAVE" ∧
    ((exportAcDryKitWavPcm16 [] options).1).drop 12
        = buildFmtChunkPcm options.channels options.sampleRate 16
            ++ buildListChunkTnge [] ++ buildSmplChunk options.sampleRate
            ++ buildDataChunk [] ∧
    kitRegions [] options = [] ∧
    readLE32 (buildDataChunk []) 4 = 0 ∧
    (∃ pre suf, tngeJsonBytes (kitRegions [] options)
        = pre ++ (asciiBytes "\"regions\":[]" ++ suf)) := by
  refine ⟨?_, rfl, ?_, rfl, rfl, rfl, rfl, ?_⟩
  · show ((0 : Nat) : ℚ) / options.sampleRate = 0
    simp
  · have hbytes : (exportAcDryKitWavPcm16 [] options).1
        = asciiBytes "RIFF"
          ++ le32 (4 + (buildFmtChunkPcm options.channels options.sampleRate 16).length
              + (buildListChunkTnge []).length
              + (buildSmplChunk options.sampleRate).length
              + (buildDataChunk []).length)
          ++ asciiBytes "WAVE"
          ++ buildFmtChunkPcm options.channels options.sampleRate 16
          ++ buildListChunkTnge [] ++ buildSmplChunk options.sampleRate
          ++ buildDataChunk [] := rfl
    have hF : (buildFmtChunkPcm options.channels options.sampleRate 16).length = 24 := rfl
    have hL : (buildListChunkTnge []).length = 212 := by decide
    have hS : (buildSmplChunk options.sampleRate).length = 44 := rfl
    have hD : (buildDataChunk []).length = 8 := rfl
    have hR4 : (asciiBytes "RIFF").length = 4 := rfl
    have hW4 : (asciiBytes "WAVE").length = 4 := rfl
    rw [hbytes, hF, hL, hS, hD]
    have e1 : readLE32 (asciiBytes "RIFF"
          ++ le32 (4 + 24 + 212 + 44 + 8)
          ++ asciiBytes "WAVE"
          ++ buildFmtChunkPcm options.channels options.sampleRate 16
          ++ buildListChunkTnge [] ++ buildSmplChunk options.sampleRate
          ++ buildDataChunk []) 4 = 292 := by
      rw [show asciiBytes "RIFF"
            ++ le32 (4 + 24 + 212 + 44 + 8)
            ++ asciiBytes "WAVE"
            ++ buildFmtChunkPcm options.channels options.sampleRate 16
            ++ buildListChunkTnge [] ++ buildSmplChunk options.sampleRate
            ++ buildDataChunk []
          = asciiBytes "RIFF" ++ (le32 (4 + 24 + 212 + 44 + 8)
            ++ (asciiBytes "WAVE"
              ++ (buildFmtChunkPcm options.channels options.sampleRate 16
                ++ (buildListChunkTnge [] ++ (buildSmplChunk options.sampleRate
                  ++ buildDataChunk []))))) from by simp [List.append_assoc]]
      rw [readLE32_after4 (asciiBytes "RIFF") _ rfl]
      omega
    have e2 : (asciiBytes "RIFF"
          ++ le32 (4 + 24 + 212 + 44 + 8)
          ++ asciiBytes "WAVE"
          ++ buildFmtChunkPcm options.channels options.sampleRate 16
          ++ buildListChunkTnge [] ++ buildSmplChunk options.sampleRate
          ++ buildDataChunk []).length = 300 := by
      simp only [List.length_append, le32_length, hF, hL, hS, hD, hR4, hW4]
    rw [e1, e2]
  · have hreg : kitRegions [] options = [] := rfl
    rw [hreg]
    exact ⟨[123] ++ asciiBytes "\"sound.playmode\":\"key\",\"sound.rootnote\":60,\"sound.pitch\":0,\"sound.pan\":0,\"sound.amplitude\":100,\"envelope.attack\":0,\"envelope.release\":0,\"time.mode\":\"off\",\"sample.mode\":\"multi\",",
      [125] ++ [0], by decide⟩

set_option maxRecDepth 100000 in
/-- Witness for C9 at 44100 Hz mono options. -/
theorem exportKit_empty_witness :
    (exportAcDryKitWavPcm16 [] ⟨44100, 1⟩).2 = 0 ∧
    ((exportAcDryKitWavPcm16 [] ⟨44100, 1⟩).1).take 4 = asciiBytes "RIFF" := by
  have h := exportKit_empty ⟨44100, 1⟩ (by norm_num)
  exact ⟨h.1, h.2.1⟩
